import Mathlib

/-!
Verification of the GeneralsBigEditor core against its specification.

Part 1 models the binary container codec (`class BIGArchive` in `big_ui.py`):
byte strings are `List Nat` (one natural per byte), fallible operations
(`struct.unpack` on a short read, `struct.pack` on an out-of-range value,
`str.encode('ascii')` on a non-ASCII character) return `Option`.
-/

namespace BigEditor

/-- `FileEntry` from big_ui.py: offset, size, path, payload bytes, modified flag.
The path string is kept as the list of its character codes. -/
structure FileEntry where
  offset : Nat
  size : Nat
  path : List Nat
  data : List Nat
  modified : Bool
deriving DecidableEq, Repr

/-- `BIGArchive` in-memory state: the 4 header bytes read from the file, the
`file_size` field of the header, and the ordered entry list. -/
structure BIGArchive where
  header : List Nat
  file_size : Nat
  entries : List FileEntry
deriving DecidableEq, Repr

/-- `read_uint32_be(file.read(4))`: big-endian u32; `struct.unpack` raises
(here: `none`) when fewer than 4 bytes remain in the stream. -/
def readU32BE : List Nat → Option (Nat × List Nat)
  | b0 :: b1 :: b2 :: b3 :: r => some (((b0 * 256 + b1) * 256 + b2) * 256 + b3, r)
  | _ => none

/-- `read_uint32_le(file.read(4))`: little-endian u32. -/
def readU32LE : List Nat → Option (Nat × List Nat)
  | b0 :: b1 :: b2 :: b3 :: r => some (((b3 * 256 + b2) * 256 + b1) * 256 + b0, r)
  | _ => none

/-- `read_string`: read bytes until a NUL byte or end of stream, then decode
with `ascii`/`errors='ignore'` (bytes ≥ 128 are dropped). Returns the decoded
character codes and the remaining stream. -/
def readString : List Nat → List Nat × List Nat
  | [] => ([], [])
  | c :: r =>
    if c = 0 then ([], r)
    else
      let p := readString r
      (if c < 128 then c :: p.1 else p.1, p.2)

/-- The metadata-record loop of `load`: for the BIG5 variant each record is
preceded by one skipped byte; then big-endian offset, big-endian size and a
NUL-terminated path. -/
def readMetas (big5 : Bool) : Nat → List Nat → Option (List (Nat × Nat × List Nat) × List Nat)
  | 0, s => some ([], s)
  | n + 1, s =>
    match readU32BE (if big5 then s.drop 1 else s) with
    | none => none
    | some (off, s1) =>
      match readU32BE s1 with
      | none => none
      | some (sz, s2) =>
        match readMetas big5 n (readString s2).2 with
        | none => none
        | some (ms, rest) => some ((off, sz, (readString s2).1) :: ms, rest)

/-- `BIGArchive.load`: reject unless the header starts with the bytes `BIG`
(`ValueError` in the source, `none` here); read `file_size` (LE) and the entry
count (BE); skip 3 reserved bytes for the `BIG5` header and 4 otherwise; read
the metadata records; finally fetch each entry's payload by seeking to its
absolute offset and reading `size` bytes (a read past the end of the buffer
returns the available bytes only, as with `io.BytesIO`). -/
def load (B : List Nat) : Option BIGArchive :=
  let header := B.take 4
  if [66, 73, 71].isPrefixOf header then
    match readU32LE (B.drop 4) with
    | none => none
    | some (fs, s1) =>
      match readU32BE s1 with
      | none => none
      | some (cnt, s2) =>
        let big5 := header == [66, 73, 71, 53]
        let s3 := if big5 then s2.drop 3 else s2.drop 4
        match readMetas big5 cnt s3 with
        | none => none
        | some (ms, _) =>
          some ⟨header, fs,
            ms.map fun m => ⟨m.1, m.2.1, m.2.2, (B.drop m.1).take m.2.1, false⟩⟩
  else none

/-- Whether the archive is the `BIG5` variant (`self.header == b'BIG5'`). -/
def isBIG5 (a : BIGArchive) : Bool := a.header == [66, 73, 71, 53]

/-- Reserved bytes after the entry count: 3 for BIG5, 4 otherwise. -/
def headerReserved (big5 : Bool) : Nat := if big5 then 3 else 4

/-- Serialized size of one metadata record: skip byte (BIG5 only) + offset +
size + path + NUL terminator. -/
def recordLen (big5 : Bool) (e : FileEntry) : Nat :=
  (if big5 then 9 else 8) + e.path.length + 1

/-- Total size of the metadata record block. -/
def metaLen (big5 : Bool) (es : List FileEntry) : Nat := (es.map (recordLen big5)).sum

/-- Offset of the first payload byte in a freshly written file: 12 fixed header
bytes, the reserved bytes, then the metadata block (the `current_offset`
computation at the top of `save`). -/
def payloadStart (a : BIGArchive) : Nat :=
  12 + headerReserved (isBIG5 a) + metaLen (isBIG5 a) a.entries

/-- The offset-update loop of `save`: lay the payloads back to back in entry
order starting at `cur`, overwriting each entry's offset as it is placed. -/
def assignOffsets : Nat → List FileEntry → List FileEntry
  | _, [] => []
  | cur, e :: es => { e with offset := cur } :: assignOffsets (cur + e.size) es

/-- The in-memory side effect of `save`: every entry's offset rewritten. -/
def updateOffsets (a : BIGArchive) : BIGArchive :=
  { a with entries := assignOffsets (payloadStart a) a.entries }

/-- The recomputed `total_size` written into the header: final value of
`current_offset` after all payloads are laid out. -/
def newTotal (a : BIGArchive) : Nat := payloadStart a + (a.entries.map (·.size)).sum

/-- `struct.pack('>I', n)`: fails for values that do not fit in 32 bits. -/
def writeU32BE (n : Nat) : Option (List Nat) :=
  if n < 4294967296 then
    some [n / 16777216 % 256, n / 65536 % 256, n / 256 % 256, n % 256]
  else none

/-- `struct.pack('<I', n)`. -/
def writeU32LE (n : Nat) : Option (List Nat) :=
  if n < 4294967296 then
    some [n % 256, n / 256 % 256, n / 65536 % 256, n / 16777216 % 256]
  else none

/-- `write_string`: `string.encode('ascii') + b'\x00'`; encoding fails on a
character code ≥ 128. -/
def writeString (p : List Nat) : Option (List Nat) :=
  if p.all (· < 128) then some (p ++ [0]) else none

/-- One metadata record as written by `save`. -/
def serializeMeta (big5 : Bool) (e : FileEntry) : Option (List Nat) := do
  let o ← writeU32BE e.offset
  let s ← writeU32BE e.size
  let p ← writeString e.path
  some ((if big5 then [0] else []) ++ o ++ s ++ p)

/-- The metadata-writing loop of `save`, one record per entry in order. -/
def serializeMetas (big5 : Bool) : List FileEntry → Option (List (List Nat))
  | [] => some []
  | e :: es =>
    match serializeMeta big5 e, serializeMetas big5 es with
    | some m, some ms => some (m :: ms)
    | _, _ => none

/-- The byte string written by `save` (header, total size, count, reserved
zeros, metadata records, payloads) — for an archive whose offsets have already
been rewritten by `updateOffsets`. -/
def serializeAll (a : BIGArchive) : Option (List Nat) :=
  match writeU32LE (newTotal a), writeU32BE a.entries.length,
      serializeMetas (isBIG5 a) a.entries with
  | some ts, some cs, some ms =>
    some (a.header ++ ts ++ cs ++ List.replicate (headerReserved (isBIG5 a)) 0
      ++ ms.flatten ++ (a.entries.map (·.data)).flatten)
  | _, _, _ => none

/-- `BIGArchive.save`: the offsets of all entries are recomputed and committed
*before* the destination file is opened, so the post-state is `updateOffsets a`
whether or not the write succeeds. `writable = false` models `open` raising
`IOError`; the second component is the byte string written on success. -/
def saveAttempt (a : BIGArchive) (writable : Bool) : BIGArchive × Option (List Nat) :=
  let a1 := updateOffsets a
  (a1, if writable then serializeAll a1 else none)

/-- `BIGArchive.add_file`: append a fresh entry with offset 0, size `len(data)`
and the modified flag set. -/
def add_file (a : BIGArchive) (path : List Nat) (data : List Nat) : BIGArchive :=
  { a with entries := a.entries ++ [⟨0, data.length, path, data, true⟩] }

/-- `BIGArchive.remove_file`: `self.entries.remove(entry)` removes the first
occurrence and raises `ValueError` when the entry is absent. -/
def remove_file (a : BIGArchive) (e : FileEntry) : Option BIGArchive :=
  if e ∈ a.entries then some { a with entries := a.entries.erase e } else none

/-- The in-place mutation of `update_file` on the entry at position `i`. -/
def updateEntries : List FileEntry → Nat → List Nat → List FileEntry
  | [], _, _ => []
  | e :: es, 0, d => { e with data := d, size := d.length, modified := true } :: es
  | e :: es, i + 1, d => e :: updateEntries es i d

/-- `BIGArchive.update_file`: replace payload and size of the entry (identified
by its position, standing for Python object identity) and set modified. -/
def update_file (a : BIGArchive) (i : Nat) (data : List Nat) : BIGArchive :=
  { a with entries := updateEntries a.entries i data }

/-! ### Byte-level helper lemmas for the codec -/

theorem writeU32BE_read (n : Nat) (bs : List Nat) (h : writeU32BE n = some bs)
    (r : List Nat) : readU32BE (bs ++ r) = some (n, r) := by
  unfold writeU32BE at h
  split at h
  · cases h
    simp only [List.cons_append, List.nil_append, readU32BE]
    have hn : ((n / 16777216 % 256 * 256 + n / 65536 % 256) * 256 + n / 256 % 256) * 256
        + n % 256 = n := by omega
    rw [hn]
  · cases h

theorem writeU32LE_read (n : Nat) (bs : List Nat) (h : writeU32LE n = some bs)
    (r : List Nat) : readU32LE (bs ++ r) = some (n, r) := by
  unfold writeU32LE at h
  split at h
  · cases h
    simp only [List.cons_append, List.nil_append, readU32LE]
    have hn : ((n / 16777216 % 256 * 256 + n / 65536 % 256) * 256 + n / 256 % 256) * 256
        + n % 256 = n := by omega
    rw [hn]
  · cases h

theorem writeU32BE_length (n : Nat) (bs : List Nat) (h : writeU32BE n = some bs) :
    bs.length = 4 := by
  unfold writeU32BE at h
  split at h
  · cases h; rfl
  · cases h

theorem writeU32LE_length (n : Nat) (bs : List Nat) (h : writeU32LE n = some bs) :
    bs.length = 4 := by
  unfold writeU32LE at h
  split at h
  · cases h; rfl
  · cases h

theorem writeU32BE_ex (n : Nat) (h : n < 4294967296) : ∃ bs, writeU32BE n = some bs :=
  ⟨_, by unfold writeU32BE; rw [if_pos h]⟩

theorem writeU32LE_ex (n : Nat) (h : n < 4294967296) : ∃ bs, writeU32LE n = some bs :=
  ⟨_, by unfold writeU32LE; rw [if_pos h]⟩

theorem readU32LE_src_length (s : List Nat) (x : Nat × List Nat) (h : readU32LE s = some x) :
    4 ≤ s.length := by
  unfold readU32LE at h
  split at h
  · simp_all
  · cases h

theorem writeString_eq (p : List Nat) (bs : List Nat) (h : writeString p = some bs) :
    bs = p ++ [0] := by
  unfold writeString at h
  split at h
  · cases h; rfl
  · cases h

theorem writeString_ex (p : List Nat) (h : ∀ c ∈ p, c < 128) :
    ∃ bs, writeString p = some bs := by
  refine ⟨p ++ [0], ?_⟩
  unfold writeString
  rw [if_pos (by simpa [List.all_eq_true] using h)]

theorem readString_append (p : List Nat) (h : ∀ c ∈ p, c ≠ 0 ∧ c < 128)
    (r : List Nat) : readString (p ++ 0 :: r) = (p, r) := by
  induction p with
  | nil => simp [readString]
  | cons c cs ih =>
    obtain ⟨hc0, hc128⟩ := h c (List.mem_cons_self c cs)
    have ih2 := ih fun x hx => h x (List.mem_cons_of_mem c hx)
    simp [readString, hc0, hc128, ih2]

theorem readString_sound (s : List Nat) : ∀ c ∈ (readString s).1, c ≠ 0 ∧ c < 128 := by
  induction s with
  | nil => simp [readString]
  | cons c cs ih =>
    by_cases h0 : c = 0
    · simp [readString, h0]
    · by_cases h128 : c < 128
      · simp only [readString, if_neg h0, if_pos h128]
        intro x hx
        rcases List.mem_cons.1 hx with hx | hx
        · exact hx ▸ ⟨h0, h128⟩
        · exact ih x hx
      · simpa [readString, h0, h128] using ih

theorem serializeMeta_shape (big5 : Bool) (e : FileEntry) (m : List Nat)
    (h : serializeMeta big5 e = some m) :
    ∃ o s, writeU32BE e.offset = some o ∧ writeU32BE e.size = some s ∧
      m = (if big5 then [0] else []) ++ o ++ s ++ (e.path ++ [0]) := by
  unfold serializeMeta at h
  cases ho : writeU32BE e.offset with
  | none => rw [ho] at h; cases h
  | some o =>
    rw [ho] at h
    cases hs : writeU32BE e.size with
    | none => rw [hs] at h; cases h
    | some s =>
      rw [hs] at h
      cases hp : writeString e.path with
      | none => rw [hp] at h; cases h
      | some p =>
        rw [hp] at h
        cases h
        exact ⟨o, s, rfl, rfl, by rw [writeString_eq _ _ hp]⟩

theorem serializeMeta_ex (big5 : Bool) (e : FileEntry)
    (hoff : e.offset < 4294967296) (hsz : e.size < 4294967296)
    (hp : ∀ c ∈ e.path, c < 128) :
    ∃ m, serializeMeta big5 e = some m := by
  obtain ⟨o, ho⟩ := writeU32BE_ex _ hoff
  obtain ⟨s, hs⟩ := writeU32BE_ex _ hsz
  obtain ⟨p, hpp⟩ := writeString_ex _ hp
  exact ⟨_, by unfold serializeMeta; rw [ho, hs, hpp]; rfl⟩

theorem serializeMeta_length (big5 : Bool) (e : FileEntry) (m : List Nat)
    (h : serializeMeta big5 e = some m) : m.length = recordLen big5 e := by
  obtain ⟨o, s, ho, hs, hm⟩ := serializeMeta_shape big5 e m h
  subst hm
  have := writeU32BE_length _ _ ho
  have := writeU32BE_length _ _ hs
  cases big5 <;> simp_all [recordLen] <;> omega

theorem serializeMetas_ex (big5 : Bool) (es : List FileEntry)
    (h : ∀ e ∈ es, e.offset < 4294967296 ∧ e.size < 4294967296 ∧ ∀ c ∈ e.path, c < 128) :
    ∃ ms, serializeMetas big5 es = some ms := by
  induction es with
  | nil => exact ⟨[], rfl⟩
  | cons e es ih =>
    obtain ⟨h1, h2, h3⟩ := h e (List.mem_cons_self e es)
    obtain ⟨m, hm⟩ := serializeMeta_ex big5 e h1 h2 h3
    obtain ⟨ms, hms⟩ := ih fun x hx => h x (List.mem_cons_of_mem e hx)
    exact ⟨m :: ms, by unfold serializeMetas; rw [hm, hms]⟩

theorem serializeMetas_flatten_length (big5 : Bool) (es : List FileEntry)
    (ms : List (List Nat)) (h : serializeMetas big5 es = some ms) :
    ms.flatten.length = metaLen big5 es := by
  induction es generalizing ms with
  | nil => cases h; simp [metaLen]
  | cons e es ih =>
    unfold serializeMetas at h
    cases hm : serializeMeta big5 e with
    | none => rw [hm] at h; cases h
    | some m =>
      rw [hm] at h
      cases hms : serializeMetas big5 es with
      | none => rw [hms] at h; cases h
      | some ms0 =>
        rw [hms] at h
        cases h
        simp only [List.flatten_cons, List.length_append, metaLen, List.map_cons, List.sum_cons]
        rw [serializeMeta_length _ _ _ hm, ih ms0 hms]
        rfl

theorem readMetas_of_serializeMetas (big5 : Bool) (es : List FileEntry)
    (ms : List (List Nat)) (rest : List Nat)
    (h : serializeMetas big5 es = some ms) (hz : ∀ e ∈ es, ∀ c ∈ e.path, c ≠ 0 ∧ c < 128) :
    readMetas big5 es.length (ms.flatten ++ rest) =
      some (es.map fun e => (e.offset, e.size, e.path), rest) := by
  induction es generalizing ms with
  | nil => cases h; simp [readMetas]
  | cons e es ih =>
    unfold serializeMetas at h
    cases hm : serializeMeta big5 e with
    | none => rw [hm] at h; cases h
    | some m =>
      rw [hm] at h
      cases hms : serializeMetas big5 es with
      | none => rw [hms] at h; cases h
      | some ms0 =>
        rw [hms] at h
        cases h
        obtain ⟨o, s, ho, hs, hmeq⟩ := serializeMeta_shape big5 e m hm
        subst hmeq
        have hpath := hz e (List.mem_cons_self e es)
        have ihe := ih ms0 hms fun x hx => hz x (List.mem_cons_of_mem e hx)
        show readMetas big5 (es.length + 1) _ = _
        unfold readMetas
        have hskip :
            (if big5 then
              ((((if big5 then [0] else []) ++ o ++ s ++ (e.path ++ [0])) :: ms0).flatten
                ++ rest).drop 1
            else
              (((if big5 then [0] else []) ++ o ++ s ++ (e.path ++ [0])) :: ms0).flatten
                ++ rest) =
            o ++ (s ++ (e.path ++ 0 :: (ms0.flatten ++ rest))) := by
          cases big5 <;> simp
        rw [hskip]
        simp only [writeU32BE_read _ _ ho, writeU32BE_read _ _ hs,
          readString_append _ hpath, ihe, List.map_cons]

theorem readMetas_paths (big5 : Bool) (n : Nat) (s : List Nat)
    (ms : List (Nat × Nat × List Nat)) (rest : List Nat)
    (h : readMetas big5 n s = some (ms, rest)) :
    ∀ m ∈ ms, ∀ c ∈ m.2.2, c ≠ 0 ∧ c < 128 := by
  induction n generalizing s ms with
  | zero => cases h; simp
  | succ k ih =>
    unfold readMetas at h
    cases h1 : readU32BE (if big5 then s.drop 1 else s) with
    | none => rw [h1] at h; cases h
    | some x1 =>
      rw [h1] at h
      cases h2 : readU32BE x1.2 with
      | none => simp [h2] at h
      | some x2 =>
        simp only [h2] at h
        cases h3 : readMetas big5 k (readString x2.2).2 with
        | none => simp [h3] at h
        | some pr =>
          simp only [h3] at h
          cases h
          intro m hm
          rcases List.mem_cons.1 hm with hm | hm
          · subst hm
            exact readString_sound x2.2
          · exact ih _ _ h3 m hm

/-! ### Offset-assignment lemmas -/

theorem assignOffsets_map_path (cur : Nat) (es : List FileEntry) :
    (assignOffsets cur es).map (·.path) = es.map (·.path) := by
  induction es generalizing cur with
  | nil => rfl
  | cons e es ih => simp [assignOffsets, ih]

theorem assignOffsets_map_size (cur : Nat) (es : List FileEntry) :
    (assignOffsets cur es).map (·.size) = es.map (·.size) := by
  induction es generalizing cur with
  | nil => rfl
  | cons e es ih => simp [assignOffsets, ih]

theorem assignOffsets_map_data (cur : Nat) (es : List FileEntry) :
    (assignOffsets cur es).map (·.data) = es.map (·.data) := by
  induction es generalizing cur with
  | nil => rfl
  | cons e es ih => simp [assignOffsets, ih]

theorem assignOffsets_bounds (cur : Nat) (es : List FileEntry) :
    ∀ e1 ∈ assignOffsets cur es,
      cur ≤ e1.offset ∧ e1.offset + e1.size ≤ cur + (es.map (·.size)).sum := by
  induction es generalizing cur with
  | nil => simp [assignOffsets]
  | cons e es ih =>
    intro e1 h1
    rcases List.mem_cons.1 h1 with h1 | h1
    · subst h1; simp
    · have := ih (cur + e.size) e1 h1
      simp only [List.map_cons, List.sum_cons]
      omega

theorem assignOffsets_pairwise (cur : Nat) (es : List FileEntry) :
    (assignOffsets cur es).Pairwise (fun u v => u.offset + u.size ≤ v.offset) := by
  induction es generalizing cur with
  | nil => simp [assignOffsets]
  | cons e es ih =>
    simp only [assignOffsets, List.pairwise_cons]
    refine ⟨fun e1 h1 => ?_, ih (cur + e.size)⟩
    exact le_trans (le_refl _) (assignOffsets_bounds (cur + e.size) es e1 h1).1

theorem assignOffsets_fetch (es : List FileEntry) (pre : List Nat) (cur : Nat)
    (hcur : pre.length = cur) (hlen : ∀ e ∈ es, e.data.length = e.size) :
    (assignOffsets cur es).map
        (fun e => ((pre ++ (es.map (·.data)).flatten).drop e.offset).take e.size)
      = es.map (·.data) := by
  induction es generalizing pre cur with
  | nil => rfl
  | cons e es ih =>
    simp only [assignOffsets, List.map_cons, List.flatten_cons]
    rw [List.cons_eq_cons]
    refine ⟨?_, ?_⟩
    · show ((pre ++ (e.data ++ _)).drop cur).take e.size = e.data
      rw [← hcur, List.drop_left, ← hlen e (List.mem_cons_self e es), List.take_left]
    · rw [show pre ++ (e.data ++ (es.map (·.data)).flatten)
            = (pre ++ e.data) ++ (es.map (·.data)).flatten from by simp]
      exact ih (pre ++ e.data)  (cur + e.size)
        (by rw [List.length_append, hcur, hlen e (List.mem_cons_self e es)])
        (fun x hx => hlen x (List.mem_cons_of_mem e hx))

theorem metaLen_assignOffsets (b : Bool) (cur : Nat) (es : List FileEntry) :
    metaLen b (assignOffsets cur es) = metaLen b es := by
  induction es generalizing cur with
  | nil => rfl
  | cons e es ih =>
    simp only [assignOffsets, metaLen, List.map_cons, List.sum_cons] at ih ⊢
    rw [ih (cur + e.size)]
    rfl

theorem metaLen_ge (b : Bool) (es : List FileEntry) : 9 * es.length ≤ metaLen b es := by
  induction es with
  | nil => simp [metaLen]
  | cons e es ih =>
    simp only [metaLen, List.map_cons, List.sum_cons, List.length_cons] at ih ⊢
    have : 9 ≤ recordLen b e := by unfold recordLen; split <;> omega
    omega

/-- Everything `load` guarantees about a successfully loaded archive. -/
theorem load_inversion (B : List Nat) (a : BIGArchive) (h : load B = some a) :
    a.header = B.take 4 ∧ [66, 73, 71].isPrefixOf a.header = true ∧ a.header.length = 4 ∧
      ∀ e ∈ a.entries, e.data = (B.drop e.offset).take e.size ∧
        ∀ c ∈ e.path, c ≠ 0 ∧ c < 128 := by
  simp only [load] at h
  split at h
  case isFalse => cases h
  case isTrue hpre =>
    split at h
    next => cases h
    next fs s1 hle =>
      split at h
      next => cases h
      next cnt s2 hbe =>
        split at h
        next => cases h
        next ms rest hmet =>
          cases h
          have hlen4 : (B.take 4).length = 4 := by
            have h1 := readU32LE_src_length _ _ hle
            simp only [List.length_drop] at h1
            simp only [List.length_take]
            omega
          refine ⟨rfl, hpre, hlen4, ?_⟩
          intro e he
          simp only [List.mem_map] at he
          obtain ⟨m, hm, rfl⟩ := he
          exact ⟨rfl, readMetas_paths _ _ _ _ _ hmet m hm⟩

theorem assignOffsets_length (cur : Nat) (es : List FileEntry) :
    (assignOffsets cur es).length = es.length := by
  induction es generalizing cur with
  | nil => rfl
  | cons e es ih => simp [assignOffsets, ih]

/-- C1: load a well-formed archive byte string `B`, save immediately with no
edits, reload: the reloaded entry list has the same paths, sizes and payload
bytes as the load of `B`, in the same order; the recomputed offsets are
internally consistent — every entry's `offset + size` lies within the written
file and the payload regions are pairwise non-overlapping. Well-formedness of
`B`: it loads successfully, every entry's payload region lies within `B`, and
the recomputed total size fits in a `u32`. -/
theorem c1_codec_round_trip (B : List Nat) (a : BIGArchive)
    (hload : load B = some a)
    (hWF : ∀ e ∈ a.entries, e.offset + e.size ≤ B.length)
    (hTot : newTotal a < 4294967296) :
    ∃ out a2,
      (saveAttempt a true).2 = some out ∧
      load out = some a2 ∧
      a2.entries.map (·.path) = a.entries.map (·.path) ∧
      a2.entries.map (·.size) = a.entries.map (·.size) ∧
      a2.entries.map (·.data) = a.entries.map (·.data) ∧
      (∀ e2 ∈ a2.entries, e2.offset + e2.size ≤ out.length) ∧
      a2.entries.Pairwise (fun u v => u.offset + u.size ≤ v.offset) := by
  obtain ⟨hhdr, hpre, hhlen, hent⟩ := load_inversion B a hload
  have hdatalen : ∀ e ∈ a.entries, e.data.length = e.size := by
    intro e he
    have h2 := hWF e he
    rw [(hent e he).1]
    simp only [List.length_take, List.length_drop]
    omega
  have hnt : newTotal a = payloadStart a + (a.entries.map (·.size)).sum := rfl
  have hmeta1 : metaLen (isBIG5 a) (assignOffsets (payloadStart a) a.entries)
      = metaLen (isBIG5 a) a.entries := metaLen_assignOffsets _ _ _
  have hsize1 : (assignOffsets (payloadStart a) a.entries).map (·.size)
      = a.entries.map (·.size) := assignOffsets_map_size _ _
  have hpath1 : (assignOffsets (payloadStart a) a.entries).map (·.path)
      = a.entries.map (·.path) := assignOffsets_map_path _ _
  have hdata1 : (assignOffsets (payloadStart a) a.entries).map (·.data)
      = a.entries.map (·.data) := assignOffsets_map_data _ _
  have hpay1 : payloadStart (updateOffsets a) = payloadStart a := by
    show 12 + headerReserved (isBIG5 a)
        + metaLen (isBIG5 a) (assignOffsets (payloadStart a) a.entries) = _
    rw [hmeta1]
    rfl
  have htot1 : newTotal (updateOffsets a) = newTotal a := by
    show payloadStart (updateOffsets a)
        + ((assignOffsets (payloadStart a) a.entries).map (·.size)).sum = _
    rw [hpay1, hsize1]
    rfl
  obtain ⟨ts, hts⟩ := writeU32LE_ex (newTotal a) hTot
  have hcntlt : a.entries.length < 4294967296 := by
    have h9 := metaLen_ge (isBIG5 a) a.entries
    have hle : metaLen (isBIG5 a) a.entries ≤ newTotal a := by
      rw [hnt]; simp only [payloadStart]; omega
    omega
  obtain ⟨cs, hcs⟩ := writeU32BE_ex a.entries.length hcntlt
  have hbounds := assignOffsets_bounds (payloadStart a) a.entries
  have hpathof : ∀ e1 ∈ assignOffsets (payloadStart a) a.entries,
      ∀ c ∈ e1.path, c ≠ 0 ∧ c < 128 := by
    intro e1 h1
    have hpmem : e1.path ∈ a.entries.map (·.path) := by
      rw [← hpath1]
      exact List.mem_map_of_mem _ h1
    obtain ⟨e0, he0, hpe⟩ := List.mem_map.1 hpmem
    intro c hc
    rw [← hpe] at hc
    exact (hent e0 he0).2 c hc
  obtain ⟨ms, hms⟩ : ∃ ms,
      serializeMetas (isBIG5 a) (assignOffsets (payloadStart a) a.entries) = some ms := by
    apply serializeMetas_ex
    intro e1 h1
    obtain ⟨hlo, hhi⟩ := hbounds e1 h1
    rw [← hnt] at hhi
    exact ⟨by omega, by omega, fun c hc => (hpathof e1 h1 c hc).2⟩
  have hcnt1 : (assignOffsets (payloadStart a) a.entries).length = a.entries.length :=
    assignOffsets_length _ _
  -- the byte string written by save
  set es1 := assignOffsets (payloadStart a) a.entries with hes1
  set out := a.header ++ ts ++ cs ++ List.replicate (headerReserved (isBIG5 a)) 0
      ++ ms.flatten ++ (es1.map (·.data)).flatten with hout
  have hser : serializeAll (updateOffsets a) = some out := by
    show (match writeU32LE (newTotal (updateOffsets a)),
        writeU32BE (updateOffsets a).entries.length,
        serializeMetas (isBIG5 (updateOffsets a)) (updateOffsets a).entries with
      | some ts, some cs, some ms =>
        some ((updateOffsets a).header ++ ts ++ cs
          ++ List.replicate (headerReserved (isBIG5 (updateOffsets a))) 0
          ++ ms.flatten ++ ((updateOffsets a).entries.map (·.data)).flatten)
      | _, _, _ => none) = some out
    rw [show (updateOffsets a).entries = es1 from rfl,
      show isBIG5 (updateOffsets a) = isBIG5 a from rfl, htot1, hts, hcnt1, hcs, hms]
    rfl
  have htslen := writeU32LE_length _ _ hts
  have hcslen := writeU32BE_length _ _ hcs
  have hmslen : ms.flatten.length = metaLen (isBIG5 a) a.entries := by
    rw [serializeMetas_flatten_length _ _ _ hms, hmeta1]
  have hprelen : (a.header ++ ts ++ cs
      ++ List.replicate (headerReserved (isBIG5 a)) 0 ++ ms.flatten).length
      = payloadStart a := by
    simp only [List.length_append, List.length_replicate, hhlen, htslen, hcslen, hmslen,
      payloadStart]
  have hflatlen : ((a.entries.map (·.data)).flatten).length
      = (a.entries.map (·.size)).sum := by
    rw [List.length_flatten, List.map_map]
    congr 1
    exact List.map_congr_left fun e he => hdatalen e he
  have houtlen : out.length = newTotal a := by
    rw [hout, hdata1]
    have hassoc : a.header ++ ts ++ cs ++ List.replicate (headerReserved (isBIG5 a)) 0
        ++ ms.flatten ++ (a.entries.map (·.data)).flatten
        = (a.header ++ ts ++ cs ++ List.replicate (headerReserved (isBIG5 a)) 0
          ++ ms.flatten) ++ (a.entries.map (·.data)).flatten := by
      simp [List.append_assoc]
    rw [hassoc, List.length_append, hprelen, hflatlen]
    rfl
  -- parse the written bytes back
  have houtr : out = a.header ++ (ts ++ (cs ++ (List.replicate (headerReserved (isBIG5 a)) 0
      ++ (ms.flatten ++ (es1.map (fun x : FileEntry => x.data)).flatten)))) := by
    rw [hout]
    simp [List.append_assoc]
  have htake4 : out.take 4 = a.header := by
    rw [houtr, ← hhlen]
    exact List.take_left _ _
  have hdrop4 : out.drop 4 = ts ++ (cs ++ (List.replicate (headerReserved (isBIG5 a)) 0
      ++ (ms.flatten ++ (es1.map (fun x : FileEntry => x.data)).flatten))) := by
    rw [houtr, ← hhlen]
    exact List.drop_left _ _
  have hmetread := readMetas_of_serializeMetas (isBIG5 a) es1 ms
      ((es1.map (·.data)).flatten) hms hpathof
  have hload2 : load out = some ⟨a.header, newTotal a,
      es1.map fun e => ⟨e.offset, e.size, e.path, (out.drop e.offset).take e.size, false⟩⟩ := by
    simp only [load]
    rw [htake4, if_pos hpre, hdrop4]
    simp only [writeU32LE_read _ _ hts, writeU32BE_read _ _ hcs]
    rw [show (a.header == [66, 73, 71, 53]) = isBIG5 a from rfl]
    have hzdrop : (if isBIG5 a = true then
          (List.replicate (headerReserved (isBIG5 a)) 0
            ++ (ms.flatten ++ (es1.map (fun x : FileEntry => x.data)).flatten)).drop 3
        else
          (List.replicate (headerReserved (isBIG5 a)) 0
            ++ (ms.flatten ++ (es1.map (fun x : FileEntry => x.data)).flatten)).drop 4)
        = ms.flatten ++ (es1.map (fun x : FileEntry => x.data)).flatten := by
      cases hb : isBIG5 a
      · rw [if_neg (fun hc => Bool.false_ne_true hc)]
        exact List.drop_left' (by simp [headerReserved])
      · rw [if_pos rfl]
        exact List.drop_left' (by simp [headerReserved])
    rw [hzdrop, ← hcnt1]
    simp only [hmetread, List.map_map]
    rfl
  refine ⟨out, _, hser, hload2, ?_, ?_, ?_, ?_, ?_⟩
  · rw [List.map_map]
    exact hpath1
  · rw [List.map_map]
    exact hsize1
  · rw [List.map_map]
    have hout2 : out = (a.header ++ ts ++ cs ++ List.replicate (headerReserved (isBIG5 a)) 0
        ++ ms.flatten) ++ (a.entries.map (·.data)).flatten := by
      rw [hout, hdata1]
    rw [hout2]
    exact assignOffsets_fetch a.entries _ (payloadStart a) hprelen hdatalen
  · intro e2 he2
    obtain ⟨e1, he1, rfl⟩ := List.mem_map.1 he2
    have hb2 := (hbounds e1 he1).2
    rw [houtlen]
    show e1.offset + e1.size ≤ newTotal a
    rw [hnt]
    exact hb2
  · rw [List.pairwise_map]
    exact assignOffsets_pairwise _ _

/-- A minimal well-formed single-entry BIGF archive: header, total size field,
count 1, 4 reserved bytes, one record (offset 26, size 1, path "A"), payload. -/
def sampleBytes : List Nat :=
  [66, 73, 71, 70, 0, 0, 0, 0, 0, 0, 0, 1, 0, 0, 0, 0, 0, 0, 0, 26, 0, 0, 0, 1, 65, 0, 88]

/-- The archive `load sampleBytes` produces. -/
def sampleArchive : BIGArchive :=
  ⟨[66, 73, 71, 70], 0, [⟨26, 1, [65], [88], false⟩]⟩

theorem c1_codec_round_trip_witness :
    ∃ out a2,
      (saveAttempt sampleArchive true).2 = some out ∧
      load out = some a2 ∧
      a2.entries.map (·.path) = sampleArchive.entries.map (·.path) ∧
      a2.entries.map (·.size) = sampleArchive.entries.map (·.size) ∧
      a2.entries.map (·.data) = sampleArchive.entries.map (·.data) ∧
      (∀ e2 ∈ a2.entries, e2.offset + e2.size ≤ out.length) ∧
      a2.entries.Pairwise (fun u v => u.offset + u.size ≤ v.offset) :=
  c1_codec_round_trip sampleBytes sampleArchive (by decide) (by decide) (by decide)

/-- A single-entry BIGF archive whose payload sits at offset 30, leaving a
4-byte gap after the metadata block, so a save would relocate it to offset 26. -/
def gapBytes : List Nat :=
  [66, 73, 71, 70, 0, 0, 0, 0, 0, 0, 0, 1, 0, 0, 0, 0, 0, 0, 0, 30, 0, 0, 0, 1,
   65, 0, 9, 9, 9, 9, 88]

/-- The archive `load gapBytes` produces. -/
def gapArchive : BIGArchive :=
  ⟨[66, 73, 71, 70], 0, [⟨30, 1, [65], [88], false⟩]⟩

/-- C2 counterexample: a save that fails (destination unwritable, `IOError`
raised by `open`) has already rewritten the entry offsets — here the loaded
offset 30 has become 26 even though no byte was written. -/
theorem c2_counterexample :
    load gapBytes = some gapArchive ∧
    (saveAttempt gapArchive false).2 = none ∧
    (saveAttempt gapArchive false).1.entries.map (·.offset)
      ≠ gapArchive.entries.map (·.offset) := by
  refine ⟨by decide, rfl, by decide⟩

theorem assignOffsets_map_modified (cur : Nat) (es : List FileEntry) :
    (assignOffsets cur es).map (·.modified) = es.map (·.modified) := by
  induction es generalizing cur with
  | nil => rfl
  | cons e es ih => simp [assignOffsets, ih]

/-- C2 amended: a failed save leaves the archive with all offsets already
recomputed — the same offsets a successful save would commit, wholesale rather
than partially — and no other entry field (path, size, data, modified) changed;
the offsets are rewritten before the write is attempted, not after it
completes. -/
theorem c2_failed_save_state (a : BIGArchive) :
    (saveAttempt a false).2 = none ∧
    (saveAttempt a false).1 = (saveAttempt a true).1 ∧
    (saveAttempt a false).1.entries.map (·.offset)
      = (assignOffsets (payloadStart a) a.entries).map (·.offset) ∧
    (saveAttempt a false).1.entries.map (·.path) = a.entries.map (·.path) ∧
    (saveAttempt a false).1.entries.map (·.size) = a.entries.map (·.size) ∧
    (saveAttempt a false).1.entries.map (·.data) = a.entries.map (·.data) ∧
    (saveAttempt a false).1.entries.map (·.modified) = a.entries.map (·.modified) :=
  ⟨rfl, rfl, rfl, assignOffsets_map_path _ _, assignOffsets_map_size _ _,
    assignOffsets_map_data _ _, assignOffsets_map_modified _ _⟩

/-- A 16-byte input whose magic is the unrecognized `BIGX`. -/
def bigxBytes : List Nat :=
  [66, 73, 71, 88, 0, 0, 0, 0, 0, 0, 0, 0, 0, 0, 0, 0]

/-- C3 counterexample: the magic `BIGX` is none of `BIG4`/`BIGF`/`BIG5`, yet
`load` succeeds (the source only checks `startswith(b'BIG')`), contradicting
the claim that such inputs fail with `FormatError`. -/
theorem c3_counterexample : load bigxBytes = some ⟨[66, 73, 71, 88], 0, []⟩ := by
  decide

/-- C3 amended: `load` rejects on magic grounds exactly the inputs whose first
bytes do not start with `BIG`; any input whose first three bytes are `BIG` —
including unrecognized four-byte magics such as `BIGX` — passes the magic
check, with `BIG5` selecting the 5-variant layout and every other accepted
magic the 4/F-variant layout. -/
theorem c3_magic_check (B : List Nat)
    (h : ¬ [66, 73, 71].isPrefixOf (B.take 4) = true) : load B = none := by
  simp only [load]
  rw [if_neg h]

theorem c3_magic_check_witness : load [0, 1, 2, 3, 4, 5, 6, 7] = none :=
  c3_magic_check [0, 1, 2, 3, 4, 5, 6, 7] (by decide)

/-! ### CRUD helper lemmas -/

theorem updateEntries_length (es : List FileEntry) (i : Nat) (d : List Nat) :
    (updateEntries es i d).length = es.length := by
  induction es generalizing i with
  | nil => rfl
  | cons e es ih =>
    cases i with
    | zero => rfl
    | succ j => simp [updateEntries, ih]

theorem updateEntries_getElem_self (es : List FileEntry) (i : Nat) (d : List Nat) :
    (updateEntries es i d)[i]? = es[i]?.map
      fun e0 => { e0 with data := d, size := d.length, modified := true } := by
  induction es generalizing i with
  | nil => simp [updateEntries]
  | cons e es ih =>
    cases i with
    | zero => simp [updateEntries]
    | succ j => simpa [updateEntries] using ih j

theorem updateEntries_getElem_other (es : List FileEntry) (i : Nat) (d : List Nat)
    (j : Nat) (hj : j ≠ i) : (updateEntries es i d)[j]? = es[j]? := by
  induction es generalizing i j with
  | nil => simp [updateEntries]
  | cons e es ih =>
    cases i with
    | zero =>
      cases j with
      | zero => exact absurd rfl hj
      | succ k => rfl
    | succ i0 =>
      cases j with
      | zero => simp [updateEntries]
      | succ k => simpa [updateEntries] using ih i0 k (fun h => hj (by rw [h]))

/-- C5: CRUD postconditions. `add_file p d` appends exactly one new entry (path
`p`, data `d`, size `len d`, modified) leaving all others unchanged;
`remove_file e` (for an `e` occurring once, as Python object identity
guarantees) removes exactly that occurrence, so `e` is absent and the rest are
untouched; `update_file` at position `i` sets that entry's data, size and
modified flag and leaves every other position unchanged. -/
theorem c5_crud (a : BIGArchive) (p d d2 : List Nat) (e : FileEntry) (i : Nat)
    (hcount : a.entries.count e = 1) :
    (add_file a p d).entries = a.entries ++ [⟨0, d.length, p, d, true⟩] ∧
    (∃ a3, remove_file a e = some a3 ∧ e ∉ a3.entries ∧
      ∃ l1 l2, a.entries = l1 ++ e :: l2 ∧ a3.entries = l1 ++ l2) ∧
    (update_file a i d2).entries.length = a.entries.length ∧
    (update_file a i d2).entries[i]? = a.entries[i]?.map
      (fun e0 => { e0 with data := d2, size := d2.length, modified := true }) ∧
    ∀ j, j ≠ i → (update_file a i d2).entries[j]? = a.entries[j]? := by
  have hmem : e ∈ a.entries := by
    by_contra hne
    rw [List.count_eq_zero_of_not_mem hne] at hcount
    cases hcount
  refine ⟨rfl, ?_, updateEntries_length _ _ _, updateEntries_getElem_self _ _ _,
    fun j hj => updateEntries_getElem_other _ _ _ j hj⟩
  refine ⟨⟨a.header, a.file_size, a.entries.erase e⟩, ?_, ?_, ?_⟩
  · unfold remove_file
    rw [if_pos hmem]
  · show e ∉ a.entries.erase e
    have := List.count_erase_self e a.entries
    rw [hcount] at this
    intro hmem2
    have hpos := List.count_pos_iff.2 hmem2
    omega
  · obtain ⟨l1, l2, _, hsplit, herase⟩ := List.exists_erase_eq hmem
    exact ⟨l1, l2, hsplit, by rw [herase]⟩

theorem c5_crud_witness :
    (add_file sampleArchive [66] [7, 8]).entries
        = sampleArchive.entries ++ [⟨0, 2, [66], [7, 8], true⟩] ∧
    (∃ a3, remove_file sampleArchive ⟨26, 1, [65], [88], false⟩ = some a3 ∧
      (⟨26, 1, [65], [88], false⟩ : FileEntry) ∉ a3.entries ∧
      ∃ l1 l2, sampleArchive.entries = l1 ++ ⟨26, 1, [65], [88], false⟩ :: l2 ∧
        a3.entries = l1 ++ l2) ∧
    (update_file sampleArchive 0 [9]).entries.length = sampleArchive.entries.length ∧
    (update_file sampleArchive 0 [9]).entries[0]? = sampleArchive.entries[0]?.map
      (fun e0 => { e0 with data := [9], size := 1, modified := true }) ∧
    ∀ j, j ≠ 0 → (update_file sampleArchive 0 [9]).entries[j]?
        = sampleArchive.entries[j]? :=
  c5_crud sampleArchive [66] [7, 8] [9] ⟨26, 1, [65], [88], false⟩ 0 (by decide)

/-!
Part 2 models the config parser (`class SmartINIParser` in
`enhanced_integration.py`). Text is `List Char`; the Python string helpers
(`strip`, `split`, `startswith`, `in`) are reproduced below with their exact
semantics. A parse that raises in the source returns `none` here.
-/

/-- Python `str.strip()` whitespace class. -/
def pySpace (c : Char) : Bool :=
  c = ' ' || c = '\t' || c = '\n' || c = '\r' || c = '\x0b' || c = '\x0c'

/-- `str.strip()`. -/
def pyStrip (s : List Char) : List Char :=
  ((s.dropWhile pySpace).reverse.dropWhile pySpace).reverse

/-- `str.split(sep)` for a one-character separator: split at every occurrence,
keeping empty fields. -/
def splitOnChar (sep : Char) : List Char → List (List Char)
  | [] => [[]]
  | c :: r =>
    let ps := splitOnChar sep r
    if c = sep then [] :: ps
    else
      match ps with
      | [] => [[c]]
      | h :: t => (c :: h) :: t

/-- Everything before the first occurrence of `sep` (`split(sep, 1)[0]`). -/
def beforeFirst (sep : Char) (s : List Char) : List Char := s.takeWhile (· ≠ sep)

/-- Everything after the first occurrence of `sep` (`split(sep, 1)[1]`,
meaningful only when `sep` occurs). -/
def afterFirst (sep : Char) (s : List Char) : List Char :=
  (s.dropWhile (· ≠ sep)).tail

/-- Splitting on whitespace keeping empty fields (helper for `pySplit`). -/
def splitWs : List Char → List (List Char)
  | [] => [[]]
  | c :: r =>
    let ps := splitWs r
    if pySpace c then [] :: ps
    else
      match ps with
      | [] => [[c]]
      | h :: t => (c :: h) :: t

/-- `str.split()` with no arguments: whitespace-run separated tokens, no
empty fields. -/
def pySplit (s : List Char) : List (List Char) :=
  (splitWs s).filter (fun t => ¬ t.isEmpty)

/-- `str.split(None, 1)`: first whitespace-delimited token, then the rest of
the string with the separating run removed (kept verbatim otherwise). -/
def pySplitN1 (s : List Char) : List (List Char) :=
  let s1 := s.dropWhile pySpace
  if s1.isEmpty then []
  else
    let tok := s1.takeWhile (fun c => ¬ pySpace c)
    let rest := (s1.dropWhile (fun c => ¬ pySpace c)).dropWhile pySpace
    if rest.isEmpty then [tok] else [tok, rest]

/-- Python `pat in s` substring test. -/
def containsSub (pat : List Char) : List Char → Bool
  | [] => pat.isEmpty
  | c :: r => pat.isPrefixOf (c :: r) || containsSub pat r

/-- A property value as stored in the Python dicts: a plain string, a list of
strings (`ShowSubObject`/`HideSubObject`, `armors`, `prerequisites`, `_raw`,
`_lines`), the `weapons` list of `(slot, weapon)` records, or an optional
string (the `conditions` slot, which may be Python `None`). -/
inductive PVal where
  | str : List Char → PVal
  | strList : List (List Char) → PVal
  | weaponList : List (List Char × List Char) → PVal
  | optStr : Option (List Char) → PVal
deriving DecidableEq, Repr

/-- Python dict assignment on an insertion-ordered association list: update in
place when the key exists, append otherwise. -/
def aset {α : Type} : List (List Char × α) → List Char → α → List (List Char × α)
  | [], k, v => [(k, v)]
  | (k0, v0) :: r, k, v =>
    if k0 = k then (k, v) :: r else (k0, v0) :: aset r k v

/-- Python dict lookup. -/
def alookup {α : Type} : List (List Char × α) → List Char → Option α
  | [], _ => none
  | (k0, v0) :: r, k => if k0 = k then some v0 else alookup r k

/-- Mutation of an existing dict entry through a held reference (no-op when the
key is absent, which cannot happen for the references the parser holds). -/
def aupdate {α : Type} : List (List Char × α) → List Char → (α → α) → List (List Char × α)
  | [], _, _ => []
  | (k0, v0) :: r, k, f =>
    if k0 = k then (k0, f v0) :: r else (k0, v0) :: aupdate r k f

/-- A section dict: `type`, optional `tag` (module sections), property map.
The source also initializes an empty, never-read `subsections` dict for module
sections; it is omitted. -/
structure PSection where
  type : List Char
  tag : Option (List Char)
  props : List (List Char × PVal)
deriving DecidableEq, Repr

/-- An object-definition dict as built by `parse_ini_content`. -/
structure ObjDef where
  type : List Char
  name : List Char
  source_file : List Char
  props : List (List Char × PVal)
  sections : List (List Char × PSection)
  line_number : Nat
deriving DecidableEq, Repr

/-- The parser's loop state. `curObj` holds the key of `current_object` in
`objects` (Python holds a reference to the same dict); `curSection` holds
(owning object key, section key) for `current_section`. -/
structure PState where
  objects : List (List Char × ObjDef)
  curObj : Option (List Char)
  curSection : Option (List Char × List Char)
  sectionStack : List (List Char × List Char)
  inSection : Bool
  sectionProps : List (List Char)
deriving DecidableEq, Repr

def objectKeywords : List (List Char) :=
  ["Object".toList, "Weapon".toList, "Armor".toList, "Science".toList,
   "Upgrade".toList, "Locomotor".toList, "CommandSet".toList, "CommandButton".toList,
   "FXList".toList, "ParticleSystem".toList, "ObjectCreationList".toList,
   "SpecialPower".toList]

/-- `_is_object_definition`: the line starts with a keyword followed by a
space. -/
def is_object_definition (line : List Char) : Bool :=
  objectKeywords.any fun kw => (kw ++ [' ']).isPrefixOf line

/-- `_parse_object_definition`: first token and remainder, or nothing when the
line has no second part. -/
def parse_object_definition (line : List Char) : Option (List Char × List Char) :=
  match pySplitN1 line with
  | [t, n] => some (t, n)
  | _ => none

/-- The WeaponSet scan of `_process_section_properties`: `Conditions` lines
set the conditions slot (`"None"` when bare); `Weapon`-prefixed lines with `=`
and at least two tokens after it contribute `(slot, weapon)` unless the weapon
name contains `"FX"`. -/
def weaponSetStep (acc : List (List Char × List Char) × Option (List Char))
    (prop : List Char) : List (List Char × List Char) × Option (List Char) :=
  if "Conditions".toList.isPrefixOf prop then
    (acc.1, some (if prop.contains '=' then pyStrip (afterFirst '=' prop)
                  else "None".toList))
  else if "Weapon".toList.isPrefixOf prop ∧ prop.contains '=' then
    match pySplit (pyStrip (afterFirst '=' prop)) with
    | slot :: wname :: _ =>
      if containsSub "FX".toList wname then acc
      else (acc.1 ++ [(slot, wname)], acc.2)
    | _ => acc
  else acc

def weaponSetScan (lines : List (List Char)) :
    List (List Char × List Char) × Option (List Char) :=
  lines.foldl weaponSetStep ([], none)

/-- The ArmorSet scan: collected armors, conditions, and the property map with
any `DamageFX` assignments applied during the loop. -/
def armorSetScan (props0 : List (List Char × PVal)) (lines : List (List Char)) :
    List (List Char) × Option (List Char) × List (List Char × PVal) :=
  lines.foldl
    (fun acc prop =>
      if "Conditions".toList.isPrefixOf prop then
        (acc.1, some (if prop.contains '=' then pyStrip (afterFirst '=' prop)
                      else "None".toList), acc.2.2)
      else if "Armor".toList.isPrefixOf prop ∧ prop.contains '=' then
        (acc.1 ++ [pyStrip (afterFirst '=' prop)], acc.2.1, acc.2.2)
      else if "DamageFX".toList.isPrefixOf prop ∧ prop.contains '=' then
        (acc.1, acc.2.1,
          aset acc.2.2 "DamageFX".toList (.str (pyStrip (afterFirst '=' prop))))
      else acc)
    ([], none, props0)

/-- The Prerequisites scan: `Object = <name>` lines collected in order. -/
def prereqScan (lines : List (List Char)) : List (List Char) :=
  lines.foldl
    (fun acc prop =>
      if "Object".toList.isPrefixOf prop ∧ prop.contains '=' then
        acc ++ [pyStrip (afterFirst '=' prop)]
      else acc)
    []

/-- The generic section scan: `key = value` assignments; other lines appended
to the `_lines` list, initialised only when the key is absent. When `_lines`
holds a non-list value (a previous `_lines = …` assignment stored a string),
`.append` raises `AttributeError`: `none` here, the remaining lines
unprocessed. -/
def genericScan : List (List Char × PVal) → List (List Char) →
    Option (List (List Char × PVal))
  | ps, [] => some ps
  | ps, prop :: rest =>
    if prop.contains '=' then
      genericScan
        (aset ps (pyStrip (beforeFirst '=' prop)) (.str (pyStrip (afterFirst '=' prop))))
        rest
    else
      match alookup ps "_lines".toList with
      | none => genericScan (aset ps "_lines".toList (.strList [prop])) rest
      | some (.strList l) =>
        genericScan (aset ps "_lines".toList (.strList (l ++ [prop]))) rest
      | some _ => none

/-- `_process_section_properties` preceded by the `_raw` write that
`parse_ini_content` performs just before calling it. Only the generic branch
can raise (`AttributeError` through `genericScan`): `none` then. -/
def process_section_properties (sec : PSection) (lines : List (List Char)) :
    Option PSection :=
  let ps0 := aset sec.props "_raw".toList (.strList lines)
  if sec.type = "WeaponSet".toList then
    let r := weaponSetScan lines
    let p1 := aset ps0 "weapons".toList (.weaponList r.1)
    some { sec with props := aset p1 "conditions".toList (.optStr r.2) }
  else if sec.type = "ArmorSet".toList then
    let r := armorSetScan ps0 lines
    let p1 := aset r.2.2 "armors".toList (.strList r.1)
    some { sec with props := aset p1 "conditions".toList (.optStr r.2.1) }
  else if sec.type = "Prerequisites".toList then
    some { sec with props := aset ps0 "prerequisites".toList (.strList (prereqScan lines)) }
  else
    match genericScan ps0 lines with
    | none => none
    | some ps => some { sec with props := ps }

/-- `_parse_property` on an object's property dict (the parser always calls it
with `section = None`; the source's `Locomotor` special case stores the same
value as the default branch). A bare `ShowSubObject`/`HideSubObject` line whose
key currently holds a non-list value makes the source raise `AttributeError`
(`.append` on `str`): `none` here. -/
def parse_property (line : List Char) (props : List (List Char × PVal)) :
    Option (List (List Char × PVal)) :=
  if line.contains '=' then
    some (aset props (pyStrip (beforeFirst '=' line)) (.str (pyStrip (afterFirst '=' line))))
  else
    match pySplitN1 line with
    | [] => some props
    | k :: rest =>
      let v := rest.headD []
      if k = "ShowSubObject".toList ∨ k = "HideSubObject".toList then
        match alookup props k with
        | none => some (aset props k (.strList [v]))
        | some (.strList l) => some (aset props k (.strList (l ++ [v])))
        | some _ => none
      else some (aset props k (.str v))

def typedSections : List (List Char) :=
  ["WeaponSet".toList, "ArmorSet".toList, "Prerequisites".toList, "Conditions".toList]

/-- Run the end-of-section processing through the `current_section` reference:
replace the section `key` of object `owner` by its processed version, or `none`
when the processing raises. A lookup miss (impossible for the references the
parser holds, as with `aupdate`) leaves the map unchanged. -/
def writeSection (objects : List (List Char × ObjDef)) (owner key : List Char)
    (lines : List (List Char)) : Option (List (List Char × ObjDef)) :=
  match alookup objects owner with
  | none => some objects
  | some od =>
    match alookup od.sections key with
    | none => some objects
    | some sec =>
      match process_section_properties sec lines with
      | none => none
      | some sec2 =>
        some (aset objects owner { od with sections := aset od.sections key sec2 })

/-- `current_object['sections'][key] = section`. -/
def addSection (objects : List (List Char × ObjDef)) (cur key : List Char)
    (sec : PSection) : List (List Char × ObjDef) :=
  aupdate objects cur fun od => { od with sections := aset od.sections key sec }

/-- The stack pop at `End`: `section_stack.pop()`, then `current_section` and
`in_section` recomputed from the remaining stack. -/
def popSection (st1 : PState) : PState :=
  if st1.sectionStack.isEmpty then
    { st1 with inSection := false, curSection := none }
  else
    { st1 with
      sectionStack := st1.sectionStack.dropLast,
      curSection := st1.sectionStack.dropLast.getLast?,
      inSection := !st1.sectionStack.dropLast.isEmpty }

/-- The `End`-inside-a-section handling: process the buffered lines into the
current section (when any), then pop the stack; `none` when the processing
raises. -/
def endInSection (st : PState) : Option PState :=
  if st.sectionProps.isEmpty then some (popSection st)
  else
    match st.curSection with
    | some (owner, key) =>
      (writeSection st.objects owner key st.sectionProps).map
        (fun objs => popSection { st with objects := objs, sectionProps := [] })
    | none => some (popSection st)

/-- The name transformation applied to the remainder of an object-definition
line: drop every `=`, and when the result starts with a space take the second
`split(" ")` field. -/
def objName (n : List Char) : List Char :=
  if ((if n.contains '=' then n.filter (fun c => c ≠ '=') else n).headD 'x') = ' ' then
    (splitOnChar ' ' (if n.contains '=' then n.filter (fun c => c ≠ '=') else n)).getD 1 []
  else if n.contains '=' then n.filter (fun c => c ≠ '=') else n

/-- Open a new definition: fresh dict stored under its name, section state
reset (`section_stack = []`, `in_section = False`; `current_section` and the
buffered lines are deliberately left as they are, as in the source). -/
def openObject (st : PState) (src : List Char) (lineNum : Nat) (t n : List Char) :
    PState :=
  { st with
    objects := aset st.objects (objName n) ⟨t, objName n, src, [], [], lineNum⟩,
    curObj := some (objName n),
    sectionStack := [],
    inSection := false }

/-- One iteration of the `parse_ini_content` loop on an already-read line.
`none` models an uncaught exception: the `IndexError` of the module-tag branch
when nothing precedes the first `=`, the `AttributeError` of
`_parse_property`, or the `AttributeError` of the generic section scan at an
`End`. -/
def processLine (src : List Char) (lineNum : Nat) (st : PState) (rawLine : List Char) :
    Option PState :=
  if (pyStrip rawLine).isEmpty ∨ (pyStrip rawLine).headD ' ' = ';' then some st
  else if is_object_definition (pyStrip rawLine) then
    match parse_object_definition (pyStrip rawLine) with
    | some (t, n) =>
      if t.isEmpty ∨ n.isEmpty then some st
      else some (openObject st src lineNum t n)
    | none => some st
  else if pyStrip rawLine = "End".toList then
    if st.inSection ∧ st.curSection.isSome then endInSection st
    else some { st with curObj := none }
  else if st.curObj.isSome ∧ ¬ st.inSection then
    match st.curObj with
    | none => some st
    | some cur =>
      if pyStrip rawLine ∈ typedSections then
        some { st with
          objects := addSection st.objects cur (pyStrip rawLine)
            ⟨pyStrip rawLine, none, []⟩,
          sectionStack := st.sectionStack ++ [(cur, pyStrip rawLine)],
          curSection := some (cur, pyStrip rawLine),
          inSection := true,
          sectionProps := [] }
      else if (pyStrip rawLine).contains '=' ∧
          containsSub "ModuleTag_".toList (pyStrip rawLine) then
        match pySplit (pyStrip ((splitOnChar '=' (pyStrip rawLine)).headD [])) with
        | [] => none
        | t :: tr =>
          some { st with
            objects := addSection st.objects cur ((t :: tr).getLastD [])
              ⟨t, some ((t :: tr).getLastD []), []⟩,
            sectionStack := st.sectionStack ++ [(cur, (t :: tr).getLastD [])],
            curSection := some (cur, (t :: tr).getLastD []),
            inSection := true,
            sectionProps := [] }
      else
        match alookup st.objects cur with
        | none => some st
        | some od =>
          match parse_property (pyStrip rawLine) od.props with
          | none => none
          | some ps =>
            some { st with objects := aset st.objects cur { od with props := ps } }
  else if st.curObj.isSome ∧ st.inSection ∧ st.curSection.isSome then
    some { st with sectionProps := st.sectionProps ++ [pyStrip rawLine] }
  else some st

def initState : PState := ⟨[], none, none, [], false, []⟩

/-- The `for line_num, line in enumerate(lines)` loop. -/
def parseLinesFrom (src : List Char) : List (List Char) → Nat → PState → Option PState
  | [], _, st => some st
  | l :: ls, n, st =>
    match processLine src n st l with
    | none => none
    | some st1 => parseLinesFrom src ls (n + 1) st1

/-- `parse_ini_content`: split on newlines, run the loop, return the
name → definition map (or `none` when the source would raise). -/
def parse_ini_content (content : List Char) (source_file : List Char) :
    Option (List (List Char × ObjDef)) :=
  (parseLinesFrom source_file (splitOnChar '\n' content) 0 initState).map (·.objects)

/-- The list of loop states `parse_ini_content` passes through, in order,
truncated at an exception. -/
def parseTrace (src : List Char) : List (List Char) → Nat → PState → List PState
  | [], _, st => [st]
  | l :: ls, n, st =>
    st ::
      match processLine src n st l with
      | none => []
      | some st1 => parseTrace src ls (n + 1) st1

/-!
Part 3 models `_build_relationships` / `_extract_general_from_path`.
-/

/-- The ten edge maps of `self.relationships`. -/
structure Relationships where
  unit_weapons : List (List Char × List (List Char))
  weapon_units : List (List Char × List (List Char))
  unit_armor : List (List Char × List Char)
  unit_locomotor : List (List Char × List Char)
  unit_general : List (List Char × List Char)
  general_units : List (List Char × List (List Char))
  upgrade_units : List (List Char × List (List Char))
  unit_upgrades : List (List Char × List (List Char))
  prerequisites : List (List Char × List (List Char))
  enables : List (List Char × List (List Char))
deriving DecidableEq, Repr

def emptyRelationships : Relationships := ⟨[], [], [], [], [], [], [], [], [], []⟩

/-- `if k not in m: m[k] = []` followed by `m[k].append(x)`. -/
def appendTo (m : List (List Char × List (List Char))) (k x : List Char) :
    List (List Char × List (List Char)) :=
  match alookup m k with
  | some l => aset m k (l ++ [x])
  | none => aset m k [x]

/-- The weapon names the builder reads from an object: the `weapons` list of
its `WeaponSet` section, keeping entries whose `weapon` field is a nonempty
string (`if weapon_name:`). The parser always stores this slot as a
`weaponList`; any other shape would make the source raise, and is read as
empty here. -/
def weaponNamesOf (od : ObjDef) : List (List Char) :=
  match alookup od.sections "WeaponSet".toList with
  | some ws =>
    let l : List (List Char × List Char) :=
      match alookup ws.props "weapons".toList with
      | some (.weaponList l0) => l0
      | _ => []
    l.filterMap fun wi => if wi.2.isEmpty then none else some wi.2
  | none => []

/-- The `armors` list of the `ArmorSet` section (always a `strList` when
produced by the parser). -/
def armorsOf (od : ObjDef) : List (List Char) :=
  match alookup od.sections "ArmorSet".toList with
  | some s =>
    match alookup s.props "armors".toList with
    | some (.strList l) => l
    | _ => []
  | none => []

/-- The locomotor edge target: for a string-valued `Locomotor` property
containing a space and splitting into at least two tokens, the last token. -/
def locomotorOf (od : ObjDef) : Option (List Char) :=
  match alookup od.props "Locomotor".toList with
  | some (.str v) =>
    if v.contains ' ' then
      match pySplit v with
      | p :: q :: r => some ((p :: q :: r).getLastD [])
      | _ => none
    else none
  | _ => none

/-- The `prerequisites` list of the `Prerequisites` section. -/
def prereqsOf (od : ObjDef) : List (List Char) :=
  match alookup od.sections "Prerequisites".toList with
  | some s =>
    match alookup s.props "prerequisites".toList with
    | some (.strList l) => l
    | _ => []
  | none => []

/-- The hard-coded filename → general table of `_extract_general_from_path`. -/
def general_mapping : List (List Char × List Char) :=
  [("AmericaInfantry.ini".toList, "America".toList),
   ("AmericaVehicle.ini".toList, "America".toList),
   ("AmericaAir.ini".toList, "America".toList),
   ("ChinaInfantry.ini".toList, "China".toList),
   ("ChinaVehicle.ini".toList, "China".toList),
   ("ChinaAir.ini".toList, "China".toList),
   ("GLAInfantry.ini".toList, "GLA".toList),
   ("GLAVehicle.ini".toList, "GLA".toList),
   ("AirforceGeneral.ini".toList, "AirforceGeneral".toList),
   ("LaserGeneral.ini".toList, "LaserGeneral".toList),
   ("SuperweaponGeneral.ini".toList, "SuperweaponGeneral".toList),
   ("InfantryGeneral.ini".toList, "InfantryGeneral".toList),
   ("TankGeneral.ini".toList, "TankGeneral".toList),
   ("DemoGeneral.ini".toList, "DemoGeneral".toList),
   ("ChemicalGeneral.ini".toList, "ChemicalGeneral".toList),
   ("StealthGeneral.ini".toList, "StealthGeneral".toList),
   ("BossGeneral.ini".toList, "BossGeneral".toList)]

/-- `_extract_general_from_path`: look the backslash-basename up in the
table. -/
def extract_general_from_path (path : List Char) : Option (List Char) :=
  alookup general_mapping ((splitOnChar '\\' path).getLastD [])

/-- The WeaponSet block of the builder loop: reverse edges appended per
nonempty weapon name, then the forward list if nonempty. -/
def stepWeapons (name : List Char) (od : ObjDef) (r : Relationships) : Relationships :=
  let wnames := weaponNamesOf od
  let r1 := { r with
    weapon_units := wnames.foldl (fun m w => appendTo m w name) r.weapon_units }
  if wnames.isEmpty then r1
  else { r1 with unit_weapons := aset r1.unit_weapons name wnames }

/-- The ArmorSet block: only the first listed armor is tracked. -/
def stepArmor (name : List Char) (od : ObjDef) (r : Relationships) : Relationships :=
  match armorsOf od with
  | [] => r
  | a0 :: _ => { r with unit_armor := aset r.unit_armor name a0 }

/-- The Locomotor block. -/
def stepLoco (name : List Char) (od : ObjDef) (r : Relationships) : Relationships :=
  match locomotorOf od with
  | some loco => { r with unit_locomotor := aset r.unit_locomotor name loco }
  | none => r

/-- The Prerequisites block: forward list plus one reverse `enables` edge per
prerequisite. -/
def stepPrereqs (name : List Char) (od : ObjDef) (r : Relationships) : Relationships :=
  let ps := prereqsOf od
  if ps.isEmpty then r
  else
    let r1 := { r with prerequisites := aset r.prerequisites name ps }
    { r1 with enables := ps.foldl (fun m p => appendTo m p name) r1.enables }

/-- The general block: only for definitions whose source path starts with
`Object`. -/
def stepGeneral (name : List Char) (od : ObjDef) (r : Relationships) : Relationships :=
  if "Object".toList.isPrefixOf od.source_file then
    match extract_general_from_path od.source_file with
    | some g =>
      let r1 := { r with unit_general := aset r.unit_general name g }
      { r1 with general_units := appendTo r1.general_units g name }
    | none => r
  else r

/-- One section of the upgrade block: an `ObjectCreationUpgrade`-typed section
with a string `TriggeredBy` property yields both upgrade edge directions. -/
def upgradeStep (name : List Char) (r : Relationships) (sv : List Char × PSection) :
    Relationships :=
  if sv.2.type = "ObjectCreationUpgrade".toList then
    match alookup sv.2.props "TriggeredBy".toList with
    | some (PVal.str up) =>
      let r1 := { r with unit_upgrades := appendTo r.unit_upgrades name up }
      { r1 with upgrade_units := appendTo r1.upgrade_units up name }
    | _ => r
  else r

/-- The upgrade block: the loop over all sections of the object. -/
def stepUpgrades (name : List Char) (od : ObjDef) (r : Relationships) : Relationships :=
  od.sections.foldl (upgradeStep name) r

/-- One iteration of the `for obj_name, obj_data in all_objects.items()` loop. -/
def buildStep (r : Relationships) (kv : List Char × ObjDef) : Relationships :=
  stepUpgrades kv.1 kv.2
    (stepGeneral kv.1 kv.2
      (stepPrereqs kv.1 kv.2
        (stepLoco kv.1 kv.2
          (stepArmor kv.1 kv.2
            (stepWeapons kv.1 kv.2 r)))))

/-- `_build_relationships`: one pass over the aggregate definition map. -/
def build_relationships (all_objects : List (List Char × ObjDef)) : Relationships :=
  all_objects.foldl buildStep emptyRelationships

/-! ### Association-list lemmas -/

theorem alookup_aset_self {α : Type} (m : List (List Char × α)) (k : List Char) (v : α) :
    alookup (aset m k v) k = some v := by
  induction m with
  | nil => simp [aset, alookup]
  | cons kv r ih =>
    obtain ⟨k0, v0⟩ := kv
    by_cases h : k0 = k
    · simp [aset, alookup, h]
    · simp [aset, alookup, h, ih]

theorem alookup_aset_ne {α : Type} (m : List (List Char × α)) (k : List Char) (v : α)
    (k' : List Char) (h : k' ≠ k) : alookup (aset m k v) k' = alookup m k' := by
  induction m with
  | nil =>
    simp only [aset, alookup]
    rw [if_neg (fun hc => h hc.symm)]
  | cons kv r ih =>
    obtain ⟨k0, v0⟩ := kv
    by_cases h0 : k0 = k
    · subst h0
      simp only [aset, if_pos rfl, alookup]
      rw [if_neg (fun hc => h hc.symm), if_neg (fun hc => h hc.symm)]
    · simp only [aset, if_neg h0, alookup]
      by_cases h1 : k0 = k'
      · rw [if_pos h1, if_pos h1]
      · rw [if_neg h1, if_neg h1, ih]

theorem mem_aset {α : Type} (m : List (List Char × α)) (k : List Char) (v : α)
    (kv' : List Char × α) (h : kv' ∈ aset m k v) : kv' = (k, v) ∨ kv' ∈ m := by
  induction m with
  | nil => simpa [aset] using h
  | cons kv r ih =>
    obtain ⟨k0, v0⟩ := kv
    by_cases h0 : k0 = k
    · simp only [aset, if_pos h0] at h
      rcases List.mem_cons.1 h with h | h
      · exact Or.inl h
      · exact Or.inr (List.mem_cons_of_mem _ h)
    · simp only [aset, if_neg h0] at h
      rcases List.mem_cons.1 h with h | h
      · exact Or.inr (h ▸ List.mem_cons_self _ _)
      · rcases ih h with h | h
        · exact Or.inl h
        · exact Or.inr (List.mem_cons_of_mem _ h)

theorem mem_aupdate {α : Type} (m : List (List Char × α)) (k : List Char) (f : α → α)
    (kv' : List Char × α) (h : kv' ∈ aupdate m k f) :
    kv' ∈ m ∨ ∃ v0, (kv'.1, v0) ∈ m ∧ kv'.2 = f v0 := by
  induction m with
  | nil => simp [aupdate] at h
  | cons kv r ih =>
    obtain ⟨k0, v0⟩ := kv
    by_cases h0 : k0 = k
    · simp only [aupdate, if_pos h0] at h
      rcases List.mem_cons.1 h with h | h
      · exact Or.inr ⟨v0, by simp [h], by simp [h]⟩
      · exact Or.inl (List.mem_cons_of_mem _ h)
    · simp only [aupdate, if_neg h0] at h
      rcases List.mem_cons.1 h with h | h
      · exact Or.inl (h ▸ List.mem_cons_self _ _)
      · rcases ih h with h | ⟨w, hw1, hw2⟩
        · exact Or.inl (List.mem_cons_of_mem _ h)
        · exact Or.inr ⟨w, List.mem_cons_of_mem _ hw1, hw2⟩

theorem alookup_mem {α : Type} (m : List (List Char × α)) (k : List Char) (v : α)
    (h : alookup m k = some v) : (k, v) ∈ m := by
  induction m with
  | nil => cases h
  | cons kv r ih =>
    obtain ⟨k0, v0⟩ := kv
    by_cases h0 : k0 = k
    · simp only [alookup, if_pos h0] at h
      cases h
      simp [h0]
    · simp only [alookup, if_neg h0] at h
      exact List.mem_cons_of_mem _ (ih h)

theorem alookup_aupdate_self {α : Type} (m : List (List Char × α)) (k : List Char)
    (f : α → α) (v : α) (h : alookup m k = some v) :
    alookup (aupdate m k f) k = some (f v) := by
  induction m with
  | nil => cases h
  | cons kv r ih =>
    obtain ⟨k0, v0⟩ := kv
    by_cases h0 : k0 = k
    · simp only [alookup, if_pos h0] at h
      cases h
      simp [aupdate, alookup, h0]
    · simp only [alookup, if_neg h0] at h
      simp only [aupdate, if_neg h0, alookup, if_neg h0]
      exact ih h

theorem alookup_aupdate_ne {α : Type} (m : List (List Char × α)) (k : List Char)
    (f : α → α) (k' : List Char) (h : k' ≠ k) :
    alookup (aupdate m k f) k' = alookup m k' := by
  induction m with
  | nil => rfl
  | cons kv r ih =>
    obtain ⟨k0, v0⟩ := kv
    by_cases h0 : k0 = k
    · subst h0
      simp only [aupdate, if_pos rfl, alookup]
      rw [if_neg (fun hc => h hc.symm), if_neg (fun hc => h hc.symm)]
    · simp only [aupdate, if_neg h0, alookup]
      by_cases h1 : k0 = k'
      · rw [if_pos h1, if_pos h1]
      · rw [if_neg h1, if_neg h1, ih]

/-! ### C6: WeaponSet post-processing -/

/-- The per-line contribution of the WeaponSet scan: `Conditions` lines and
lines that do not parse as `Weapon… = <SLOT> <name>…` contribute nothing; a
parsed weapon line contributes `(slot, name)` unless the name contains
`"FX"`. -/
def weaponKeep (prop : List Char) : Option (List Char × List Char) :=
  if "Conditions".toList.isPrefixOf prop then none
  else if "Weapon".toList.isPrefixOf prop ∧ prop.contains '=' then
    match pySplit (pyStrip (afterFirst '=' prop)) with
    | slot :: wname :: _ =>
      if containsSub "FX".toList wname then none else some (slot, wname)
    | _ => none
  else none

theorem weaponSetStep_fst (acc : List (List Char × List Char) × Option (List Char))
    (prop : List Char) :
    (weaponSetStep acc prop).1 = acc.1 ++ (weaponKeep prop).toList := by
  unfold weaponSetStep weaponKeep
  split
  · simp
  · split
    · cases hm : pySplit (pyStrip (afterFirst '=' prop)) with
      | nil => simp [hm]
      | cons slot rest =>
        cases rest with
        | nil => simp [hm]
        | cons wname r2 =>
          simp only [hm]
          split
          · simp
          · simp
    · simp

theorem weaponSetScan_fst_eq (lines : List (List Char)) :
    ∀ acc, (lines.foldl weaponSetStep acc).1 = acc.1 ++ lines.filterMap weaponKeep := by
  induction lines with
  | nil => intro acc; simp
  | cons p ls ih =>
    intro acc
    simp only [List.foldl_cons, List.filterMap_cons]
    rw [ih, weaponSetStep_fst]
    cases hk : weaponKeep p <;> simp [hk]

theorem weaponKeep_no_fx (p : List Char) (entry : List Char × List Char)
    (h : weaponKeep p = some entry) : containsSub "FX".toList entry.2 = false := by
  unfold weaponKeep at h
  split at h
  · cases h
  · split at h
    · split at h
      · split at h
        · cases h
        · cases h
          rename_i hfx
          simpa using hfx
      · cases h
    · cases h

/-- C6: the weapons list a WeaponSet section produces from its buffered lines
contains, in order, one `(slot, weapon)` entry per buffered
`Weapon… = <SLOT> <name>` line whose weapon name does not contain `"FX"` and
none for the lines whose weapon name contains `"FX"`; in particular the
buffered lines `Weapon = PRIMARY CrusaderTankGun` and
`Weapon = SECONDARY CrusaderTankGunFX` yield only the PRIMARY entry. -/
theorem c6_weaponset_fx_filtering :
    (∀ lines, (weaponSetScan lines).1 = lines.filterMap weaponKeep) ∧
    (∀ lines entry, entry ∈ (weaponSetScan lines).1 →
      containsSub "FX".toList entry.2 = false) ∧
    (weaponSetScan ["Conditions = None".toList,
      "Weapon = PRIMARY CrusaderTankGun".toList,
      "Weapon = SECONDARY CrusaderTankGunFX".toList]).1
      = [("PRIMARY".toList, "CrusaderTankGun".toList)] := by
  have h1 : ∀ lines, (weaponSetScan lines).1 = lines.filterMap weaponKeep := by
    intro lines
    unfold weaponSetScan
    rw [weaponSetScan_fst_eq]
    rfl
  refine ⟨h1, ?_, by decide⟩
  intro lines entry hmem
  rw [h1] at hmem
  obtain ⟨p, _, hkeep⟩ := List.mem_filterMap.1 hmem
  exact weaponKeep_no_fx p entry hkeep

theorem c6_weaponset_fx_filtering_witness :
    ("PRIMARY".toList, "CrusaderTankGun".toList)
        ∈ (weaponSetScan ["Conditions = None".toList,
            "Weapon = PRIMARY CrusaderTankGun".toList,
            "Weapon = SECONDARY CrusaderTankGunFX".toList]).1 ∧
    containsSub "FX".toList "CrusaderTankGun".toList = false :=
  ⟨by decide,
    c6_weaponset_fx_filtering.2.1 ["Conditions = None".toList,
      "Weapon = PRIMARY CrusaderTankGun".toList,
      "Weapon = SECONDARY CrusaderTankGunFX".toList]
      ("PRIMARY".toList, "CrusaderTankGun".toList) (by decide)⟩

/-! ### C9: multi-valued key accumulation -/

/-- `_parse_property` applied to a run of plain property lines in order — the
treatment the property lines of a definition body receive. -/
def parsePropertyFold : List (List Char) → List (List Char × PVal) →
    Option (List (List Char × PVal))
  | [], ps => some ps
  | l :: ls, ps =>
    match parse_property l ps with
    | none => none
    | some ps1 => parsePropertyFold ls ps1

/-- The value a bare (no `=`) property line contributes to key `k`: its
remainder after the first token, when that token is `k`. -/
def bareValue (k : List Char) (l : List Char) : Option (List Char) :=
  if l.contains '=' then none
  else
    match pySplitN1 l with
    | k0 :: rest => if k0 = k then some (rest.headD []) else none
    | [] => none

/-- The property-map value corresponding to an accumulated list: absent when
nothing has accumulated. -/
def accVal (vs : List (List Char)) : Option PVal :=
  if vs.isEmpty then none else some (.strList vs)

/-- The two multi-valued keys. -/
def ShowHideKey (k : List Char) : Prop :=
  k = "ShowSubObject".toList ∨ k = "HideSubObject".toList

theorem parse_property_multi_step (k l : List Char) (ps ps1 : List (List Char × PVal))
    (acc : List (List Char)) (hk : ShowHideKey k)
    (hbar : l.contains '=' = true → pyStrip (beforeFirst '=' l) ≠ k)
    (h0 : alookup ps k = accVal acc)
    (hp : parse_property l ps = some ps1) :
    alookup ps1 k = accVal (acc ++ (bareValue k l).toList) := by
  unfold parse_property at hp
  unfold bareValue
  split at hp
  case isTrue he =>
    cases hp
    rw [if_pos he]
    simp only [Option.toList_none, List.append_nil]
    rw [alookup_aset_ne _ _ _ _ (fun hc => hbar he hc.symm)]
    exact h0
  case isFalse he =>
    rw [if_neg he]
    split at hp
    next hnil =>
      cases hp
      simp only [hnil]
      simpa using h0
    next k0 rest hcons =>
      simp only [hcons]
      split at hp
      case isTrue hk0 =>
        split at hp
        case h_1 hlook =>
          cases hp
          by_cases hkk : k0 = k
          · subst hkk
            rw [hlook] at h0
            have hacc : acc = [] := by
              unfold accVal at h0
              split at h0
              · simpa using (by assumption : acc.isEmpty = true)
              · cases h0
            subst hacc
            rw [if_pos rfl]
            simp [alookup_aset_self, accVal]
          · rw [if_neg hkk]
            simp only [Option.toList_none, List.append_nil]
            rw [alookup_aset_ne _ _ _ _ (fun hc => hkk hc.symm)]
            exact h0
        case h_2 vs hlook =>
          cases hp
          by_cases hkk : k0 = k
          · subst hkk
            rw [hlook] at h0
            have hvs : vs = acc ∧ acc ≠ [] := by
              unfold accVal at h0
              split at h0
              · cases h0
              · exact ⟨by cases h0; rfl, by simpa using (by assumption : ¬acc.isEmpty = true)⟩
            rw [if_pos rfl]
            rw [alookup_aset_self]
            unfold accVal
            rw [if_neg (by simp [hvs.1])]
            rw [hvs.1]
            simp
          · rw [if_neg hkk]
            simp only [Option.toList_none, List.append_nil]
            rw [alookup_aset_ne _ _ _ _ (fun hc => hkk hc.symm)]
            exact h0
        case h_3 hne1 hne2 => cases hp
      case isFalse hk0 =>
        cases hp
        have hkk : k0 ≠ k := fun hc => hk0 (hc ▸ hk)
        rw [if_neg hkk]
        simp only [Option.toList_none, List.append_nil]
        rw [alookup_aset_ne _ _ _ _ (fun hc => hkk hc.symm)]
        exact h0

theorem parsePropertyFold_multi (k : List Char) (hk : ShowHideKey k) :
    ∀ (lines : List (List Char)) (props0 ps : List (List Char × PVal))
      (acc : List (List Char)),
      (∀ l ∈ lines, l.contains '=' = true → pyStrip (beforeFirst '=' l) ≠ k) →
      alookup props0 k = accVal acc →
      parsePropertyFold lines props0 = some ps →
      alookup ps k = accVal (acc ++ lines.filterMap (bareValue k)) := by
  intro lines
  induction lines with
  | nil =>
    intro props0 ps acc _ h0 hf
    cases hf
    simpa using h0
  | cons l ls ih =>
    intro props0 ps acc hbar h0 hf
    unfold parsePropertyFold at hf
    split at hf
    case h_1 => cases hf
    case h_2 ps1 hp =>
      have hA := parse_property_multi_step k l props0 ps1 acc hk
        (hbar l (List.mem_cons_self l ls)) h0 hp
      have hB := ih ps1 ps (acc ++ (bareValue k l).toList)
        (fun x hx => hbar x (List.mem_cons_of_mem l hx)) hA hf
      rw [hB, List.filterMap_cons]
      cases hbv : bareValue k l <;> simp [hbv]

/-- The lines on which the module-tag branch raises `IndexError`: `=` and
`ModuleTag_` present but only whitespace before the first `=`. -/
def badModuleLine (l : List Char) : Prop :=
  (pyStrip l).contains '=' = true ∧
    containsSub "ModuleTag_".toList (pyStrip l) = true ∧
    pySplit (pyStrip ((splitOnChar '=' (pyStrip l)).headD [])) = []

instance (l : List Char) : Decidable (badModuleLine l) := by
  unfold badModuleLine
  infer_instance

/-- The lines that assign `ShowSubObject`/`HideSubObject` with the `=` form —
the assignments that can later make a bare occurrence raise
`AttributeError`. -/
def eqShowHideLine (l : List Char) : Prop :=
  (pyStrip l).contains '=' = true ∧
    ShowHideKey (pyStrip (beforeFirst '=' (pyStrip l)))

instance (k : List Char) : Decidable (ShowHideKey k) := by
  unfold ShowHideKey
  infer_instance

instance (l : List Char) : Decidable (eqShowHideLine l) := by
  unfold eqShowHideLine
  infer_instance

/-- The lines that assign the `_lines` key with the `=` form — the buffered
assignments that can later make a bare buffered line raise `AttributeError`
in the generic section scan. -/
def linesKeyLine (l : List Char) : Prop :=
  (pyStrip l).contains '=' = true ∧
    pyStrip (beforeFirst '=' (pyStrip l)) = "_lines".toList

instance (l : List Char) : Decidable (linesKeyLine l) := by
  unfold linesKeyLine
  infer_instance

/-- A property map is safe when its multi-valued keys hold nothing or a
list — exactly what `.append` needs. -/
def GoodProps (props : List (List Char × PVal)) : Prop :=
  ∀ k, ShowHideKey k →
    alookup props k = none ∨ ∃ vs, alookup props k = some (PVal.strList vs)

/-- The parser invariant: every parsed object's property map is safe. -/
def ShowHideInv (st : PState) : Prop :=
  ∀ kv ∈ st.objects, GoodProps kv.2.props

/-- `current_object` is a live reference: when set, its key is in the map. -/
def CurObjInv (st : PState) : Prop :=
  ∀ c, st.curObj = some c → ∃ od, alookup st.objects c = some od

/-- `current_section` is a live reference while a section is open: it names a
stored section, and that section's property dict is still the fresh empty one
it was created with (it is filled only when the section is processed at its
`End`, after which `in_section` is false). -/
def CurSecInv (st : PState) : Prop :=
  st.inSection = true →
    ∃ o k od sec, st.curSection = some (o, k) ∧
      alookup st.objects o = some od ∧
      alookup od.sections k = some sec ∧ sec.props = []

/-- No buffered line assigns the `_lines` key with the `=` form. -/
def SecPropsOK (st : PState) : Prop :=
  ∀ p ∈ st.sectionProps,
    ¬ (p.contains '=' = true ∧ pyStrip (beforeFirst '=' p) = "_lines".toList)

theorem writeSection_props (m : List (List Char × ObjDef)) (o key : List Char)
    (lines : List (List Char)) (m' : List (List Char × ObjDef))
    (hw : writeSection m o key lines = some m')
    (kv' : List Char × ObjDef) (h : kv' ∈ m') :
    ∃ kv ∈ m, kv'.2.props = (kv.2 : ObjDef).props := by
  unfold writeSection at hw
  split at hw
  · cases hw; exact ⟨kv', h, rfl⟩
  next od hlook =>
    split at hw
    · cases hw; exact ⟨kv', h, rfl⟩
    next sec hsec =>
      split at hw
      · cases hw
      next sec2 hproc =>
        cases hw
        rcases mem_aset _ _ _ _ h with h | h
        · exact ⟨(o, od), alookup_mem _ _ _ hlook, by rw [h]⟩
        · exact ⟨kv', h, rfl⟩

theorem writeSection_lookup (m : List (List Char × ObjDef)) (o key : List Char)
    (lines : List (List Char)) (m' : List (List Char × ObjDef))
    (hw : writeSection m o key lines = some m')
    (c : List Char) (od0 : ObjDef) (h : alookup m c = some od0) :
    ∃ od2, alookup m' c = some od2 := by
  unfold writeSection at hw
  split at hw
  · cases hw; exact ⟨od0, h⟩
  next od hlook =>
    split at hw
    · cases hw; exact ⟨od0, h⟩
    next sec hsec =>
      split at hw
      · cases hw
      next sec2 hproc =>
        cases hw
        by_cases hc : c = o
        · subst hc
          exact ⟨_, alookup_aset_self _ _ _⟩
        · rw [alookup_aset_ne _ _ _ _ hc]
          exact ⟨od0, h⟩

theorem addSection_props (m : List (List Char × ObjDef)) (cur key : List Char)
    (sec : PSection) (kv' : List Char × ObjDef)
    (h : kv' ∈ addSection m cur key sec) :
    ∃ kv ∈ m, kv'.2.props = (kv.2 : ObjDef).props := by
  unfold addSection at h
  rcases mem_aupdate _ _ _ _ h with h | ⟨v0, hv, he⟩
  · exact ⟨kv', h, rfl⟩
  · exact ⟨(kv'.1, v0), hv, by rw [he]⟩

theorem popSection_objects (st : PState) : (popSection st).objects = st.objects := by
  unfold popSection
  split <;> rfl

theorem popSection_props (st : PState) :
    (popSection st).sectionProps = st.sectionProps := by
  unfold popSection
  split <;> rfl

theorem popSection_curObj (st : PState) : (popSection st).curObj = st.curObj := by
  unfold popSection
  split <;> rfl

theorem popSection_stack (st1 : PState) (hlen : st1.sectionStack.length ≤ 1) :
    (popSection st1).inSection = false ∧ (popSection st1).sectionStack = [] := by
  unfold popSection
  split
  next hemp =>
    refine ⟨rfl, ?_⟩
    show st1.sectionStack = []
    simpa using hemp
  next hemp =>
    have hdrop : st1.sectionStack.dropLast = [] := by
      cases hs : st1.sectionStack with
      | nil => simp [hs] at hemp
      | cons a t =>
        cases t with
        | nil => rfl
        | cons b t2 => rw [hs] at hlen; simp at hlen
    constructor
    · show (!st1.sectionStack.dropLast.isEmpty) = false
      rw [hdrop]
      rfl
    · exact hdrop

theorem genericScan_total :
    ∀ (lines : List (List Char)) (ps : List (List Char × PVal)),
      (∀ v, alookup ps "_lines".toList = some v → ∃ l, v = PVal.strList l) →
      (∀ p ∈ lines, ¬ (p.contains '=' = true ∧
        pyStrip (beforeFirst '=' p) = "_lines".toList)) →
      ∃ ps2, genericScan ps lines = some ps2 := by
  intro lines
  induction lines with
  | nil => exact fun ps _ _ => ⟨ps, rfl⟩
  | cons p rest ih =>
    intro ps h0 hl
    unfold genericScan
    split
    next hc =>
      apply ih
      · intro v hv
        have hk : pyStrip (beforeFirst '=' p) ≠ "_lines".toList :=
          fun hc2 => hl p (List.mem_cons_self p rest) ⟨hc, hc2⟩
        rw [alookup_aset_ne _ _ _ _ (fun he => hk he.symm)] at hv
        exact h0 v hv
      · exact fun q hq => hl q (List.mem_cons_of_mem p hq)
    next hc =>
      split
      next hnone =>
        apply ih
        · intro v hv
          rw [alookup_aset_self] at hv
          cases hv
          exact ⟨[p], rfl⟩
        · exact fun q hq => hl q (List.mem_cons_of_mem p hq)
      next l hsome =>
        apply ih
        · intro v hv
          rw [alookup_aset_self] at hv
          cases hv
          exact ⟨l ++ [p], rfl⟩
        · exact fun q hq => hl q (List.mem_cons_of_mem p hq)
      next v hne hML =>
        obtain ⟨l2, hl2⟩ := h0 v hML
        exact absurd hl2 (hne l2)

theorem process_section_properties_total (sec : PSection) (lines : List (List Char))
    (hp : sec.props = [])
    (hl : ∀ p ∈ lines, ¬ (p.contains '=' = true ∧
      pyStrip (beforeFirst '=' p) = "_lines".toList)) :
    ∃ sec2, process_section_properties sec lines = some sec2 := by
  unfold process_section_properties
  split
  · exact ⟨_, rfl⟩
  · split
    · exact ⟨_, rfl⟩
    · split
      · exact ⟨_, rfl⟩
      · have h0 : ∀ v, alookup (aset sec.props "_raw".toList (PVal.strList lines))
            "_lines".toList = some v → ∃ l, v = PVal.strList l := by
          intro v hv
          rw [hp] at hv
          have hnone : alookup (aset ([] : List (List Char × PVal)) "_raw".toList
              (PVal.strList lines)) "_lines".toList = none := by
            show (if "_raw".toList = "_lines".toList then some (PVal.strList lines)
              else alookup [] "_lines".toList) = none
            rw [if_neg (by decide)]
            rfl
          rw [hnone] at hv
          cases hv
        obtain ⟨ps2, hps2⟩ :=
          genericScan_total lines (aset sec.props "_raw".toList (.strList lines)) h0 hl
        simp only [hps2]
        exact ⟨_, rfl⟩

theorem writeSection_total (m : List (List Char × ObjDef)) (o k : List Char)
    (lines : List (List Char)) (od : ObjDef) (sec : PSection)
    (ho : alookup m o = some od) (hk : alookup od.sections k = some sec)
    (hpr : sec.props = [])
    (hl : ∀ p ∈ lines, ¬ (p.contains '=' = true ∧
      pyStrip (beforeFirst '=' p) = "_lines".toList)) :
    ∃ m', writeSection m o k lines = some m' := by
  obtain ⟨sec2, hsec2⟩ := process_section_properties_total sec lines hpr hl
  simp only [writeSection, ho, hk, hsec2]
  exact ⟨_, rfl⟩

theorem endInSection_stack (st st' : PState) (h : endInSection st = some st')
    (hlen : st.sectionStack.length ≤ 1) :
    st'.inSection = false ∧ st'.sectionStack = [] := by
  unfold endInSection at h
  split at h
  · cases h
    exact popSection_stack st hlen
  · split at h
    next owner key heq =>
      cases hw : writeSection st.objects owner key st.sectionProps with
      | none => rw [hw] at h; cases h
      | some objs =>
        rw [hw] at h
        cases h
        exact popSection_stack _ hlen
    next heq =>
      cases h
      exact popSection_stack st hlen

theorem endInSection_inv (st st' : PState) (h : endInSection st = some st')
    (hinv : ShowHideInv st) : ShowHideInv st' := by
  unfold endInSection at h
  split at h
  · cases h
    intro kv hkv
    rw [popSection_objects] at hkv
    exact hinv kv hkv
  · split at h
    next owner key heq =>
      cases hw : writeSection st.objects owner key st.sectionProps with
      | none => rw [hw] at h; cases h
      | some objs =>
        rw [hw] at h
        cases h
        intro kv hkv
        rw [popSection_objects] at hkv
        obtain ⟨kv0, h0, hpr⟩ :=
          writeSection_props st.objects owner key st.sectionProps objs hw kv hkv
        rw [show kv.2.props = kv0.2.props from hpr]
        exact hinv kv0 h0
    next heq =>
      cases h
      intro kv hkv
      rw [popSection_objects] at hkv
      exact hinv kv hkv

theorem endInSection_secProps (st st' : PState) (h : endInSection st = some st')
    (hbuf : SecPropsOK st) : SecPropsOK st' := by
  unfold endInSection at h
  split at h
  · cases h
    intro p hp
    rw [popSection_props] at hp
    exact hbuf p hp
  · split at h
    next owner key heq =>
      cases hw : writeSection st.objects owner key st.sectionProps with
      | none => rw [hw] at h; cases h
      | some objs =>
        rw [hw] at h
        cases h
        intro p hp
        rw [popSection_props] at hp
        exact absurd hp (List.not_mem_nil p)
    next heq =>
      cases h
      intro p hp
      rw [popSection_props] at hp
      exact hbuf p hp

theorem endInSection_total (st : PState) (hin : st.inSection = true)
    (hcs : CurSecInv st) (hbuf : SecPropsOK st)
    (hlen : st.sectionStack.length ≤ 1) :
    ∃ st', endInSection st = some st' ∧
      st'.inSection = false ∧ st'.sectionStack = [] := by
  by_cases hemp : st.sectionProps.isEmpty = true
  · refine ⟨popSection st, ?_, popSection_stack st hlen⟩
    unfold endInSection
    rw [if_pos hemp]
  · obtain ⟨o, k, od, sec, hcur, ho, hk, hpr⟩ := hcs hin
    obtain ⟨m', hm'⟩ :=
      writeSection_total st.objects o k st.sectionProps od sec ho hk hpr hbuf
    refine ⟨popSection { st with objects := m', sectionProps := [] }, ?_,
      popSection_stack _ hlen⟩
    unfold endInSection
    rw [if_neg hemp, hcur]
    show (writeSection st.objects o k st.sectionProps).map
      (fun objs => popSection { st with objects := objs, sectionProps := [] }) = _
    rw [hm']
    rfl

theorem endInSection_refInv (st st' : PState) (h : endInSection st = some st')
    (hlen : st.sectionStack.length ≤ 1) (hobj : CurObjInv st) :
    CurObjInv st' ∧ CurSecInv st' := by
  have hstk := endInSection_stack st st' h hlen
  constructor
  · unfold endInSection at h
    split at h
    · cases h
      intro c hc
      rw [popSection_curObj] at hc
      obtain ⟨od, hod⟩ := hobj c hc
      exact ⟨od, by rw [popSection_objects]; exact hod⟩
    · split at h
      next owner key heq =>
        cases hw : writeSection st.objects owner key st.sectionProps with
        | none => rw [hw] at h; cases h
        | some objs =>
          rw [hw] at h
          cases h
          intro c hc
          rw [popSection_curObj] at hc
          obtain ⟨od, hod⟩ := hobj c hc
          obtain ⟨od2, hod2⟩ :=
            writeSection_lookup st.objects owner key st.sectionProps objs hw c od hod
          exact ⟨od2, by rw [popSection_objects]; exact hod2⟩
      next heq =>
        cases h
        intro c hc
        rw [popSection_curObj] at hc
        obtain ⟨od, hod⟩ := hobj c hc
        exact ⟨od, by rw [popSection_objects]; exact hod⟩
  · intro hin
    rw [hstk.1] at hin
    cases hin

theorem parse_property_total (ls : List Char) (props : List (List Char × PVal))
    (hline : ¬ (ls.contains '=' = true ∧ ShowHideKey (pyStrip (beforeFirst '=' ls))))
    (hgood : GoodProps props) :
    ∃ ps, parse_property ls props = some ps ∧ GoodProps ps := by
  unfold parse_property
  split
  case isTrue he =>
    refine ⟨_, rfl, ?_⟩
    intro k hk
    have hne : pyStrip (beforeFirst '=' ls) ≠ k := by
      intro hc
      exact hline ⟨he, hc ▸ hk⟩
    rw [alookup_aset_ne _ _ _ _ (fun hc => hne hc.symm)]
    exact hgood k hk
  case isFalse he =>
    split
    · exact ⟨props, rfl, hgood⟩
    next k0 rest heq =>
      split
      case isTrue hk0 =>
        rcases hgood k0 hk0 with hl | ⟨vs, hl⟩
        · rw [hl]
          refine ⟨_, rfl, ?_⟩
          intro k hk
          by_cases hkk : k = k0
          · subst hkk
            exact Or.inr ⟨_, alookup_aset_self _ _ _⟩
          · rw [alookup_aset_ne _ _ _ _ hkk]
            exact hgood k hk
        · rw [hl]
          refine ⟨_, rfl, ?_⟩
          intro k hk
          by_cases hkk : k = k0
          · subst hkk
            exact Or.inr ⟨_, alookup_aset_self _ _ _⟩
          · rw [alookup_aset_ne _ _ _ _ hkk]
            exact hgood k hk
      case isFalse hk0 =>
        refine ⟨_, rfl, ?_⟩
        intro k hk
        have hkk : k ≠ k0 := fun hc => hk0 (hc ▸ hk)
        rw [alookup_aset_ne _ _ _ _ hkk]
        exact hgood k hk

/-- The stack-discipline invariant of the parser loop: the open-section stack
never holds more than one section, `in_section` mirrors its non-emptiness, and
an open section implies a current object and section reference. -/
def StackInv (st : PState) : Prop :=
  (st.inSection = true ↔ st.sectionStack ≠ []) ∧
  st.sectionStack.length ≤ 1 ∧
  (st.inSection = true → st.curObj.isSome = true ∧ st.curSection.isSome = true)

theorem processLine_stack (src : List Char) (n : Nat) (st : PState) (l : List Char)
    (st' : PState) (hp : processLine src n st l = some st') (hinv : StackInv st) :
    StackInv st' := by
  obtain ⟨hiff, hlen, himp⟩ := hinv
  unfold processLine at hp
  split at hp
  · cases hp; exact ⟨hiff, hlen, himp⟩
  next h1 =>
    split at hp
    next h2 =>
      split at hp
      next t nm hpo =>
        split at hp
        · cases hp; exact ⟨hiff, hlen, himp⟩
        next h3 =>
          cases hp
          exact ⟨by simp [openObject], by simp [openObject], by simp [openObject]⟩
      next hpo => cases hp; exact ⟨hiff, hlen, himp⟩
    next h2 =>
      split at hp
      next h3 =>
        split at hp
        next h4 =>
          obtain ⟨he1, he2⟩ := endInSection_stack st st' hp hlen
          exact ⟨by simp [he1, he2], by simp [he2], by simp [he1]⟩
        next h4 =>
          cases hp
          have hsec : st.inSection = false := by
            cases hb : st.inSection
            · rfl
            · exact absurd ⟨hb, (himp hb).2⟩ h4
          have hstk : st.sectionStack = [] := by
            by_contra hne
            rw [hsec] at hiff
            exact (by simp : ¬(false = true)) (hiff.2 hne)
          exact ⟨by simp [hsec, hstk], by simp [hstk], by simp [hsec]⟩
      next h3 =>
        split at hp
        next h4 =>
          split at hp
          · cases hp; exact ⟨hiff, hlen, himp⟩
          next cur hcur =>
            have hstk : st.sectionStack = [] := by
              by_contra hne
              have := hiff.2 hne
              exact h4.2 (by simp [this])
            split at hp
            next h5 =>
              cases hp
              refine ⟨by simp, by simp [hstk], ?_⟩
              intro _
              exact ⟨by simp [hcur], by simp⟩
            next h5 =>
              split at hp
              next h6 =>
                split at hp
                next => cases hp
                next t0 tr0 hsplit =>
                  cases hp
                  refine ⟨by simp, by simp [hstk], ?_⟩
                  intro _
                  exact ⟨by simp [hcur], by simp⟩
              next h6 =>
                split at hp
                · cases hp; exact ⟨hiff, hlen, himp⟩
                next od hod =>
                  split at hp
                  · cases hp
                  next ps hps =>
                    cases hp
                    exact ⟨hiff, hlen, himp⟩
        next h4 =>
          split at hp
          · cases hp
            exact ⟨hiff, hlen, himp⟩
          · cases hp; exact ⟨hiff, hlen, himp⟩

theorem processLine_refInv (src : List Char) (n : Nat) (st : PState) (l : List Char)
    (st' : PState) (hp : processLine src n st l = some st')
    (hstk : StackInv st) (hobj : CurObjInv st) (hsec : CurSecInv st) :
    CurObjInv st' ∧ CurSecInv st' := by
  unfold processLine at hp
  split at hp
  · cases hp; exact ⟨hobj, hsec⟩
  next h1 =>
    split at hp
    next h2 =>
      split at hp
      next t nm hpo =>
        split at hp
        · cases hp; exact ⟨hobj, hsec⟩
        next h3 =>
          cases hp
          constructor
          · intro c hc
            cases hc
            exact ⟨_, alookup_aset_self _ _ _⟩
          · intro hin
            cases hin
      next hpo => cases hp; exact ⟨hobj, hsec⟩
    next h2 =>
      split at hp
      next h3 =>
        split at hp
        next h4 =>
          exact endInSection_refInv st st' hp hstk.2.1 hobj
        next h4 =>
          cases hp
          constructor
          · intro c hc
            cases hc
          · intro hin
            have hin2 : st.inSection = true := hin
            obtain ⟨o, k, od, sec, hcur, ho, hk, hpr⟩ := hsec hin2
            exact absurd ⟨hin2, by rw [hcur]; rfl⟩ h4
      next h3 =>
        split at hp
        next h4 =>
          split at hp
          · cases hp; exact ⟨hobj, hsec⟩
          next cur hcur =>
            split at hp
            next h5 =>
              cases hp
              obtain ⟨od, hod⟩ := hobj cur hcur
              constructor
              · intro c hc
                have hc2 : st.curObj = some c := hc
                rw [hc2] at hcur
                cases hcur
                exact ⟨_, alookup_aupdate_self _ _ _ _ hod⟩
              · intro _
                refine ⟨cur, pyStrip l, _, ⟨pyStrip l, none, []⟩, rfl,
                  alookup_aupdate_self _ _ _ _ hod, ?_, rfl⟩
                exact alookup_aset_self _ _ _
            next h5 =>
              split at hp
              next h6 =>
                split at hp
                next => cases hp
                next t0 tr0 hsplit =>
                  cases hp
                  obtain ⟨od, hod⟩ := hobj cur hcur
                  constructor
                  · intro c hc
                    have hc2 : st.curObj = some c := hc
                    rw [hc2] at hcur
                    cases hcur
                    exact ⟨_, alookup_aupdate_self _ _ _ _ hod⟩
                  · intro _
                    refine ⟨cur, (t0 :: tr0).getLastD [],
                      _, ⟨t0, some ((t0 :: tr0).getLastD []), []⟩, rfl,
                      alookup_aupdate_self _ _ _ _ hod, ?_, rfl⟩
                    exact alookup_aset_self _ _ _
              next h6 =>
                split at hp
                · cases hp; exact ⟨hobj, hsec⟩
                next od hod =>
                  split at hp
                  · cases hp
                  next ps hps =>
                    cases hp
                    constructor
                    · intro c hc
                      have hc2 : st.curObj = some c := hc
                      rw [hc2] at hcur
                      cases hcur
                      exact ⟨_, alookup_aset_self _ _ _⟩
                    · intro hin
                      have hin2 : st.inSection = true := hin
                      exact absurd hin2 h4.2
        next h4 =>
          split at hp
          next h5 =>
            cases hp
            constructor
            · intro c hc
              exact hobj c hc
            · intro hin
              obtain ⟨o, k, od, sec, hcur, ho, hk, hpr⟩ := hsec hin
              exact ⟨o, k, od, sec, hcur, ho, hk, hpr⟩
          · cases hp; exact ⟨hobj, hsec⟩

theorem processLine_total (src : List Char) (n : Nat) (st : PState) (l : List Char)
    (hm : ¬ badModuleLine l) (hs : ¬ eqShowHideLine l) (hk : ¬ linesKeyLine l)
    (hinv : ShowHideInv st) (hstk : StackInv st)
    (hsec : CurSecInv st) (hbuf : SecPropsOK st) :
    ∃ st', processLine src n st l = some st' ∧ ShowHideInv st' ∧ SecPropsOK st' := by
  unfold processLine
  split
  · exact ⟨st, rfl, hinv, hbuf⟩
  next h1 =>
    split
    next h2 =>
      split
      next t nm hpo =>
        split
        · exact ⟨st, rfl, hinv, hbuf⟩
        next h3 =>
          refine ⟨_, rfl, ?_, hbuf⟩
          intro kv hkv
          rcases mem_aset _ _ _ _ hkv with hkv | hkv
          · rw [hkv]
            intro k2 _
            exact Or.inl rfl
          · exact hinv kv hkv
      next hpo => exact ⟨st, rfl, hinv, hbuf⟩
    next h2 =>
      split
      next h3 =>
        split
        next h4 =>
          obtain ⟨st1, hst1, hcl⟩ := endInSection_total st h4.1 hsec hbuf hstk.2.1
          exact ⟨st1, hst1, endInSection_inv st st1 hst1 hinv,
            endInSection_secProps st st1 hst1 hbuf⟩
        · exact ⟨_, rfl, fun kv hkv => hinv kv hkv, fun p hp => hbuf p hp⟩
      next h3 =>
        split
        next h4 =>
          split
          · exact ⟨st, rfl, hinv, hbuf⟩
          next cur hcur =>
            split
            next h5 =>
              refine ⟨_, rfl, ?_, ?_⟩
              · intro kv hkv
                obtain ⟨kv0, h0, hpr⟩ := addSection_props _ _ _ _ _ hkv
                rw [show kv.2.props = kv0.2.props from hpr]
                exact hinv kv0 h0
              · intro p hp
                exact absurd hp (List.not_mem_nil p)
            next h5 =>
              split
              next h6 =>
                split
                next hsplit =>
                  exact absurd ⟨h6.1, h6.2, hsplit⟩ hm
                next t0 tr0 hsplit =>
                  refine ⟨_, rfl, ?_, ?_⟩
                  · intro kv hkv
                    obtain ⟨kv0, h0, hpr⟩ := addSection_props _ _ _ _ _ hkv
                    rw [show kv.2.props = kv0.2.props from hpr]
                    exact hinv kv0 h0
                  · intro p hp
                    exact absurd hp (List.not_mem_nil p)
              next h6 =>
                split
                · exact ⟨st, rfl, hinv, hbuf⟩
                next od hod =>
                  have hgood : GoodProps od.props :=
                    hinv (cur, od) (alookup_mem _ _ _ hod)
                  have hline : ¬ ((pyStrip l).contains '=' = true ∧
                      ShowHideKey (pyStrip (beforeFirst '=' (pyStrip l)))) := hs
                  obtain ⟨ps, hps, hpsg⟩ := parse_property_total (pyStrip l) od.props hline hgood
                  rw [hps]
                  refine ⟨_, rfl, ?_, hbuf⟩
                  intro kv hkv
                  rcases mem_aset _ _ _ _ hkv with hkv | hkv
                  · rw [hkv]
                    exact hpsg
                  · exact hinv kv hkv
        next h4 =>
          split
          next h5 =>
            refine ⟨_, rfl, fun kv hkv => hinv kv hkv, ?_⟩
            intro p hp
            rcases List.mem_append.1 hp with hp | hp
            · exact hbuf p hp
            · rw [List.mem_singleton.1 hp]
              exact hk
          · exact ⟨st, rfl, hinv, hbuf⟩

theorem parseLinesFrom_total (src : List Char) :
    ∀ (lines : List (List Char)) (n : Nat) (st : PState),
      (∀ l ∈ lines, ¬ badModuleLine l ∧ ¬ eqShowHideLine l ∧ ¬ linesKeyLine l) →
      ShowHideInv st → StackInv st → CurObjInv st → CurSecInv st → SecPropsOK st →
      ∃ st', parseLinesFrom src lines n st = some st' := by
  intro lines
  induction lines with
  | nil => exact fun n st _ _ _ _ _ _ => ⟨st, rfl⟩
  | cons l ls ih =>
    intro n st hl hinv hstk hobj hsec hbuf
    obtain ⟨st1, hst1, hinv1, hbuf1⟩ := processLine_total src n st l
      (hl l (List.mem_cons_self l ls)).1 (hl l (List.mem_cons_self l ls)).2.1
      (hl l (List.mem_cons_self l ls)).2.2 hinv hstk hsec hbuf
    have hstk1 : StackInv st1 := processLine_stack src n st l st1 hst1 hstk
    obtain ⟨hobj1, hsec1⟩ := processLine_refInv src n st l st1 hst1 hstk hobj hsec
    obtain ⟨st', hst'⟩ := ih (n + 1) st1
      (fun x hx => hl x (List.mem_cons_of_mem l hx)) hinv1 hstk1 hobj1 hsec1 hbuf1
    refine ⟨st', ?_⟩
    unfold parseLinesFrom
    rw [hst1]
    exact hst'

/-- The third raise pattern concretely: a generic (module-tag) section whose
buffer assigns `_lines = x` and then holds a bare line makes the `End`
processing call `.append` on a string — `AttributeError`, `none` here. -/
theorem parse_generic_lines_raise :
    parse_ini_content
      "Object Tank\nDraw = ModuleTag_01\n_lines = x\ny\nEnd\nEnd".toList
      "f.ini".toList = none := by
  decide

theorem initState_stackInv : StackInv initState :=
  ⟨by simp [initState], by simp [initState], by simp [initState]⟩

theorem parseTrace_stackInv (src : List Char) :
    ∀ (lines : List (List Char)) (n : Nat) (st : PState), StackInv st →
      ∀ s ∈ parseTrace src lines n st, StackInv s := by
  intro lines
  induction lines with
  | nil =>
    intro n st hinv s hs
    simp only [parseTrace, List.mem_singleton] at hs
    exact hs ▸ hinv
  | cons l ls ih =>
    intro n st hinv s hs
    simp only [parseTrace] at hs
    rcases List.mem_cons.1 hs with hs | hs
    · exact hs ▸ hinv
    · cases hpl : processLine src n st l with
      | none => rw [hpl] at hs; cases hs
      | some st1 =>
        rw [hpl] at hs
        exact ih (n + 1) st1 (processLine_stack src n st l st1 hpl hinv) s hs

theorem parseTrace_refInv (src : List Char) :
    ∀ (lines : List (List Char)) (n : Nat) (st : PState),
      StackInv st → CurObjInv st → CurSecInv st →
      ∀ s ∈ parseTrace src lines n st, CurSecInv s := by
  intro lines
  induction lines with
  | nil =>
    intro n st _ _ hsec s hs
    simp only [parseTrace, List.mem_singleton] at hs
    exact hs ▸ hsec
  | cons l ls ih =>
    intro n st hstk hobj hsec s hs
    simp only [parseTrace] at hs
    rcases List.mem_cons.1 hs with hs | hs
    · exact hs ▸ hsec
    · cases hpl : processLine src n st l with
      | none => rw [hpl] at hs; cases hs
      | some st1 =>
        rw [hpl] at hs
        obtain ⟨hobj1, hsec1⟩ := processLine_refInv src n st l st1 hpl hstk hobj hsec
        exact ih (n + 1) st1 (processLine_stack src n st l st1 hpl hstk) hobj1 hsec1 s hs

def c10content : List Char :=
  "Object A\nWeaponSet\nConditions = None\nEnd\nEnd".toList

/-- The parser state reached after the `Object A` and `WeaponSet` lines of
`c10content`: one open section on the stack. -/
def c10state : PState :=
  ⟨[(['A'], ⟨"Object".toList, ['A'], "f.ini".toList, [],
      [("WeaponSet".toList, ⟨"WeaponSet".toList, none, []⟩)], 0⟩)],
   some ['A'], some (['A'], "WeaponSet".toList), [(['A'], "WeaponSet".toList)],
   true, []⟩

theorem alookup_appendTo_self (m : List (List Char × List (List Char)))
    (k x : List Char) : ∃ l, alookup (appendTo m k x) k = some l ∧ x ∈ l := by
  unfold appendTo
  cases hmk : alookup m k with
  | none => exact ⟨[x], by rw [alookup_aset_self], by simp⟩
  | some l0 => exact ⟨l0 ++ [x], by rw [alookup_aset_self], by simp⟩

theorem alookup_appendTo_ne (m : List (List Char × List (List Char)))
    (k x k' : List Char) (h : k' ≠ k) :
    alookup (appendTo m k x) k' = alookup m k' := by
  unfold appendTo
  cases hmk : alookup m k with
  | none => exact alookup_aset_ne _ _ _ _ (fun hc => h (hc : k' = k))
  | some l0 => exact alookup_aset_ne _ _ _ _ (fun hc => h (hc : k' = k))

theorem alookup_appendTo_mono (m : List (List Char × List (List Char)))
    (k x k' : List Char) (l : List (List Char)) (h : alookup m k' = some l) :
    ∃ l', alookup (appendTo m k x) k' = some l' ∧ ∀ y ∈ l, y ∈ l' := by
  by_cases hk : k' = k
  · subst hk
    unfold appendTo
    rw [h]
    exact ⟨l ++ [x], by rw [alookup_aset_self], fun y hy => by simp [hy]⟩
  · exact ⟨l, by rw [alookup_appendTo_ne _ _ _ _ hk]; exact h, fun y hy => hy⟩

theorem foldl_appendTo_mono (x : List Char) :
    ∀ (ws : List (List Char)) (m : List (List Char × List (List Char)))
      (k : List Char) (l : List (List Char)), alookup m k = some l →
      ∃ l', alookup (ws.foldl (fun m w => appendTo m w x) m) k = some l' ∧
        ∀ y ∈ l, y ∈ l' := by
  intro ws
  induction ws with
  | nil => exact fun m k l h => ⟨l, h, fun y hy => hy⟩
  | cons w ws ih =>
    intro m k l h
    obtain ⟨l1, h1, hm1⟩ := alookup_appendTo_mono m w x k l h
    obtain ⟨l', h', hm'⟩ := ih (appendTo m w x) k l1 h1
    exact ⟨l', h', fun y hy => hm' y (hm1 y hy)⟩

theorem foldl_appendTo_self (x : List Char) :
    ∀ (ws : List (List Char)) (m : List (List Char × List (List Char)))
      (w : List Char), w ∈ ws →
      ∃ l, alookup (ws.foldl (fun m w => appendTo m w x) m) w = some l ∧ x ∈ l := by
  intro ws
  induction ws with
  | nil => intro m w h; cases h
  | cons w0 ws ih =>
    intro m w h
    rcases List.mem_cons.1 h with h | h
    · subst h
      obtain ⟨l0, h0, hx0⟩ := alookup_appendTo_self m w x
      by_cases hw : w ∈ ws
      · exact ih (appendTo m w x) w hw
      · obtain ⟨l', h', hm'⟩ := foldl_appendTo_mono x ws (appendTo m w x) w l0 h0
        exact ⟨l', h', hm' x hx0⟩
    · exact ih (appendTo m w0 x) w h

theorem foldl_appendTo_none (x : List Char) :
    ∀ (ws : List (List Char)) (m : List (List Char × List (List Char)))
      (k : List Char), k ∉ ws → alookup m k = none →
      alookup (ws.foldl (fun m w => appendTo m w x) m) k = none := by
  intro ws
  induction ws with
  | nil => exact fun m k _ h => h
  | cons w ws ih =>
    intro m k hk h
    refine ih (appendTo m w x) k (fun hc => hk (List.mem_cons_of_mem w hc)) ?_
    rw [alookup_appendTo_ne _ _ _ _
      (fun hc => hk (by rw [hc]; exact List.mem_cons_self w ws))]
    exact h

theorem upgradeStep_fields (name : List Char) (r : Relationships)
    (sv : List Char × PSection) :
    (upgradeStep name r sv).unit_weapons = r.unit_weapons ∧
    (upgradeStep name r sv).weapon_units = r.weapon_units ∧
    (upgradeStep name r sv).prerequisites = r.prerequisites ∧
    (upgradeStep name r sv).enables = r.enables := by
  unfold upgradeStep
  split
  · split <;> exact ⟨rfl, rfl, rfl, rfl⟩
  · exact ⟨rfl, rfl, rfl, rfl⟩

theorem stepUpgrades_fields (name : List Char) (od : ObjDef) (r : Relationships) :
    (stepUpgrades name od r).unit_weapons = r.unit_weapons ∧
    (stepUpgrades name od r).weapon_units = r.weapon_units ∧
    (stepUpgrades name od r).prerequisites = r.prerequisites ∧
    (stepUpgrades name od r).enables = r.enables := by
  unfold stepUpgrades
  generalize od.sections = secs
  induction secs generalizing r with
  | nil => exact ⟨rfl, rfl, rfl, rfl⟩
  | cons sv svs ih =>
    simp only [List.foldl_cons]
    obtain ⟨h1, h2, h3, h4⟩ := upgradeStep_fields name r sv
    obtain ⟨g1, g2, g3, g4⟩ := ih (upgradeStep name r sv)
    exact ⟨g1.trans h1, g2.trans h2, g3.trans h3, g4.trans h4⟩

theorem stepGeneral_fields (name : List Char) (od : ObjDef) (r : Relationships) :
    (stepGeneral name od r).unit_weapons = r.unit_weapons ∧
    (stepGeneral name od r).weapon_units = r.weapon_units ∧
    (stepGeneral name od r).prerequisites = r.prerequisites ∧
    (stepGeneral name od r).enables = r.enables := by
  unfold stepGeneral
  split
  · split <;> exact ⟨rfl, rfl, rfl, rfl⟩
  · exact ⟨rfl, rfl, rfl, rfl⟩

theorem stepLoco_fields (name : List Char) (od : ObjDef) (r : Relationships) :
    (stepLoco name od r).unit_weapons = r.unit_weapons ∧
    (stepLoco name od r).weapon_units = r.weapon_units ∧
    (stepLoco name od r).prerequisites = r.prerequisites ∧
    (stepLoco name od r).enables = r.enables := by
  unfold stepLoco
  split <;> exact ⟨rfl, rfl, rfl, rfl⟩

theorem stepArmor_fields (name : List Char) (od : ObjDef) (r : Relationships) :
    (stepArmor name od r).unit_weapons = r.unit_weapons ∧
    (stepArmor name od r).weapon_units = r.weapon_units ∧
    (stepArmor name od r).prerequisites = r.prerequisites ∧
    (stepArmor name od r).enables = r.enables := by
  unfold stepArmor
  split <;> exact ⟨rfl, rfl, rfl, rfl⟩

theorem stepPrereqs_weapons_fields (name : List Char) (od : ObjDef) (r : Relationships) :
    (stepPrereqs name od r).unit_weapons = r.unit_weapons ∧
    (stepPrereqs name od r).weapon_units = r.weapon_units := by
  simp only [stepPrereqs]
  split <;> exact ⟨rfl, rfl⟩

theorem stepWeapons_prereq_fields (name : List Char) (od : ObjDef) (r : Relationships) :
    (stepWeapons name od r).prerequisites = r.prerequisites ∧
    (stepWeapons name od r).enables = r.enables := by
  simp only [stepWeapons]
  split <;> exact ⟨rfl, rfl⟩

theorem buildStep_uw (r : Relationships) (kv : List Char × ObjDef) :
    (buildStep r kv).unit_weapons = (stepWeapons kv.1 kv.2 r).unit_weapons := by
  unfold buildStep
  rw [(stepUpgrades_fields _ _ _).1, (stepGeneral_fields _ _ _).1,
    (stepPrereqs_weapons_fields _ _ _).1, (stepLoco_fields _ _ _).1,
    (stepArmor_fields _ _ _).1]

theorem buildStep_wu (r : Relationships) (kv : List Char × ObjDef) :
    (buildStep r kv).weapon_units = (stepWeapons kv.1 kv.2 r).weapon_units := by
  unfold buildStep
  rw [(stepUpgrades_fields _ _ _).2.1, (stepGeneral_fields _ _ _).2.1,
    (stepPrereqs_weapons_fields _ _ _).2, (stepLoco_fields _ _ _).2.1,
    (stepArmor_fields _ _ _).2.1]

theorem buildStep_prereq (r : Relationships) (kv : List Char × ObjDef) :
    (buildStep r kv).prerequisites
      = (stepPrereqs kv.1 kv.2 (stepLoco kv.1 kv.2 (stepArmor kv.1 kv.2
          (stepWeapons kv.1 kv.2 r)))).prerequisites := by
  unfold buildStep
  rw [(stepUpgrades_fields _ _ _).2.2.1, (stepGeneral_fields _ _ _).2.2.1]

theorem buildStep_enables (r : Relationships) (kv : List Char × ObjDef) :
    (buildStep r kv).enables
      = (stepPrereqs kv.1 kv.2 (stepLoco kv.1 kv.2 (stepArmor kv.1 kv.2
          (stepWeapons kv.1 kv.2 r)))).enables := by
  unfold buildStep
  rw [(stepUpgrades_fields _ _ _).2.2.2, (stepGeneral_fields _ _ _).2.2.2]

/-- Forward/reverse symmetry between two edge maps: every target in a forward
list has a reverse list containing the source. -/
def SymMaps (fwd rev : List (List Char × List (List Char))) : Prop :=
  ∀ u ws w, alookup fwd u = some ws → w ∈ ws →
    ∃ us, alookup rev w = some us ∧ u ∈ us

theorem stepWeapons_sym (name : List Char) (od : ObjDef) (r : Relationships)
    (h : SymMaps r.unit_weapons r.weapon_units) :
    SymMaps (stepWeapons name od r).unit_weapons (stepWeapons name od r).weapon_units := by
  simp only [stepWeapons]
  split
  · intro u ws w hu hw
    obtain ⟨us, hus, huin⟩ := h u ws w hu hw
    obtain ⟨us', hus', hmm⟩ :=
      foldl_appendTo_mono name (weaponNamesOf od) r.weapon_units w us hus
    exact ⟨us', hus', hmm u huin⟩
  · intro u ws w hu hw
    have hu' : alookup (aset r.unit_weapons name (weaponNamesOf od)) u = some ws := hu
    show ∃ us, alookup ((weaponNamesOf od).foldl
      (fun m w => appendTo m w name) r.weapon_units) w = some us ∧ u ∈ us
    by_cases hun : u = name
    · subst hun
      rw [alookup_aset_self] at hu'
      cases hu'
      exact foldl_appendTo_self u _ _ w hw
    · rw [alookup_aset_ne _ _ _ _ hun] at hu'
      obtain ⟨us, hus, huin⟩ := h u ws w hu' hw
      obtain ⟨us', hus', hmm⟩ :=
        foldl_appendTo_mono name (weaponNamesOf od) r.weapon_units w us hus
      exact ⟨us', hus', hmm u huin⟩

theorem stepPrereqs_sym (name : List Char) (od : ObjDef) (r : Relationships)
    (h : SymMaps r.prerequisites r.enables) :
    SymMaps (stepPrereqs name od r).prerequisites (stepPrereqs name od r).enables := by
  simp only [stepPrereqs]
  split
  · exact h
  · intro o ps p ho hp
    have ho' : alookup (aset r.prerequisites name (prereqsOf od)) o = some ps := ho
    show ∃ os, alookup ((prereqsOf od).foldl
      (fun m p => appendTo m p name) r.enables) p = some os ∧ o ∈ os
    by_cases hon : o = name
    · subst hon
      rw [alookup_aset_self] at ho'
      cases ho'
      exact foldl_appendTo_self o _ _ p hp
    · rw [alookup_aset_ne _ _ _ _ hon] at ho'
      obtain ⟨os, hos, hoin⟩ := h o ps p ho' hp
      obtain ⟨os', hos', hmm⟩ :=
        foldl_appendTo_mono name (prereqsOf od) r.enables p os hos
      exact ⟨os', hos', hmm o hoin⟩

theorem build_symW (m : List (List Char × ObjDef)) :
    ∀ r : Relationships, SymMaps r.unit_weapons r.weapon_units →
      SymMaps (m.foldl buildStep r).unit_weapons (m.foldl buildStep r).weapon_units := by
  induction m with
  | nil => exact fun r h => h
  | cons kv l ih =>
    intro r h
    simp only [List.foldl_cons]
    apply ih
    rw [buildStep_uw, buildStep_wu]
    exact stepWeapons_sym kv.1 kv.2 r h

theorem build_symP (m : List (List Char × ObjDef)) :
    ∀ r : Relationships, SymMaps r.prerequisites r.enables →
      SymMaps (m.foldl buildStep r).prerequisites (m.foldl buildStep r).enables := by
  induction m with
  | nil => exact fun r h => h
  | cons kv l ih =>
    intro r h
    simp only [List.foldl_cons]
    apply ih
    rw [buildStep_prereq, buildStep_enables]
    apply stepPrereqs_sym
    rw [(stepLoco_fields _ _ _).2.2.1, (stepLoco_fields _ _ _).2.2.2,
      (stepArmor_fields _ _ _).2.2.1, (stepArmor_fields _ _ _).2.2.2,
      (stepWeapons_prereq_fields _ _ _).1, (stepWeapons_prereq_fields _ _ _).2]
    exact h

/-- C7: relationship symmetry. After `_build_relationships` runs on any
aggregate definition map, every weapon in a unit's `unit_weapons` list has a
`weapon_units` entry containing that unit, and every prerequisite in an
object's `prerequisites` list has an `enables` entry containing that object. -/
theorem c7_relationship_symmetry (m : List (List Char × ObjDef)) :
    (∀ u ws w, alookup (build_relationships m).unit_weapons u = some ws → w ∈ ws →
      ∃ us, alookup (build_relationships m).weapon_units w = some us ∧ u ∈ us) ∧
    (∀ o ps p, alookup (build_relationships m).prerequisites o = some ps → p ∈ ps →
      ∃ os, alookup (build_relationships m).enables p = some os ∧ o ∈ os) := by
  refine ⟨build_symW m emptyRelationships ?_, build_symP m emptyRelationships ?_⟩ <;>
    exact fun u ws w h _ => by simp [emptyRelationships, alookup] at h

/-- A one-object aggregate map: `TankA` with a WeaponSet naming `GunX` (a
weapon absent from the map) and a Prerequisites section naming `Barracks`. -/
def wOdA : ObjDef :=
  ⟨"Object".toList, "TankA".toList, "f.ini".toList, [],
   [("WeaponSet".toList, ⟨"WeaponSet".toList, none,
      [("weapons".toList, PVal.weaponList [("PRIMARY".toList, "GunX".toList)])]⟩),
    ("Prerequisites".toList, ⟨"Prerequisites".toList, none,
      [("prerequisites".toList, PVal.strList ["Barracks".toList])]⟩)], 0⟩

def wMap : List (List Char × ObjDef) := [("TankA".toList, wOdA)]

theorem c7_relationship_symmetry_witness :
    ∃ us, alookup (build_relationships wMap).weapon_units "GunX".toList = some us ∧
      "TankA".toList ∈ us :=
  (c7_relationship_symmetry wMap).1 "TankA".toList ["GunX".toList] "GunX".toList
    (by decide) (by decide)

theorem buildStep_uw_self (r : Relationships) (kv : List Char × ObjDef)
    (hne : weaponNamesOf kv.2 ≠ []) :
    alookup (buildStep r kv).unit_weapons kv.1 = some (weaponNamesOf kv.2) := by
  rw [buildStep_uw]
  simp only [stepWeapons]
  rw [if_neg (by simpa using hne)]
  exact alookup_aset_self _ _ _

theorem buildStep_uw_other (r : Relationships) (kv : List Char × ObjDef)
    (u : List Char) (hne : u ≠ kv.1) :
    alookup (buildStep r kv).unit_weapons u = alookup r.unit_weapons u := by
  rw [buildStep_uw]
  simp only [stepWeapons]
  split
  · rfl
  · exact alookup_aset_ne _ _ _ _ hne

theorem foldl_build_uw_skip (u : List Char) :
    ∀ (l : List (List Char × ObjDef)) (r : Relationships), u ∉ l.map Prod.fst →
      alookup (l.foldl buildStep r).unit_weapons u = alookup r.unit_weapons u := by
  intro l
  induction l with
  | nil => exact fun r _ => rfl
  | cons kv l ih =>
    intro r hu
    simp only [List.foldl_cons]
    rw [ih (buildStep r kv) (fun hc => hu (List.mem_cons_of_mem kv.1 hc))]
    exact buildStep_uw_other r kv u
      (fun hc => hu (by rw [hc]; exact List.mem_cons_self kv.1 (l.map Prod.fst)))

theorem build_uw_lookup :
    ∀ (l : List (List Char × ObjDef)) (r : Relationships) (u : List Char) (od : ObjDef),
      (l.map Prod.fst).Nodup → (u, od) ∈ l → weaponNamesOf od ≠ [] →
      alookup (l.foldl buildStep r).unit_weapons u = some (weaponNamesOf od) := by
  intro l
  induction l with
  | nil => intro r u od _ hmem; cases hmem
  | cons kv l ih =>
    intro r u od hnd hmem hwn
    have hnd2 : kv.1 ∉ l.map Prod.fst ∧ (l.map Prod.fst).Nodup :=
      List.nodup_cons.1 hnd
    simp only [List.foldl_cons]
    rcases List.mem_cons.1 hmem with hmem | hmem
    · have hu : kv.1 = u := by rw [← hmem]
      have hod : kv.2 = od := by rw [← hmem]
      rw [foldl_build_uw_skip u l (buildStep r kv) (hu ▸ hnd2.1)]
      rw [← hu, ← hod]
      exact buildStep_uw_self r kv (by rw [hod]; exact hwn)
    · exact ih (buildStep r kv) u od hnd2.2 hmem hwn

theorem buildStep_wu_none (r : Relationships) (kv : List Char × ObjDef)
    (x : List Char) (hx : x ∉ weaponNamesOf kv.2)
    (h : alookup r.weapon_units x = none) :
    alookup (buildStep r kv).weapon_units x = none := by
  rw [buildStep_wu]
  simp only [stepWeapons]
  split
  · exact foldl_appendTo_none kv.1 _ _ _ hx h
  · exact foldl_appendTo_none kv.1 _ _ _ hx h

theorem build_wu_none :
    ∀ (l : List (List Char × ObjDef)) (r : Relationships) (x : List Char),
      (∀ kv ∈ l, x ∉ weaponNamesOf kv.2) → alookup r.weapon_units x = none →
      alookup (l.foldl buildStep r).weapon_units x = none := by
  intro l
  induction l with
  | nil => exact fun r x _ h => h
  | cons kv l ih =>
    intro r x hx h
    simp only [List.foldl_cons]
    exact ih (buildStep r kv) x (fun y hy => hx y (List.mem_cons_of_mem kv hy))
      (buildStep_wu_none r kv x (hx kv (List.mem_cons_self kv l)) h)

/-- C8: dangling-target tolerance. When some object's WeaponSet names a weapon
absent from the aggregate map, the builder still completes (it is a total
function of the map), the forward unit → weapon edge is recorded in
`unit_weapons`, and looking a name that received no reverse edge up in
`weapon_units` yields `none` — a lookup miss, not an exception. -/
theorem c8_dangling_target_tolerance (m : List (List Char × ObjDef))
    (u w : List Char) (od : ObjDef)
    (hnodup : (m.map Prod.fst).Nodup) (hmem : (u, od) ∈ m)
    (hw : w ∈ weaponNamesOf od) (_hdangling : alookup m w = none) :
    (∃ ws, alookup (build_relationships m).unit_weapons u = some ws ∧ w ∈ ws) ∧
    ∀ x, (∀ kv ∈ m, x ∉ weaponNamesOf kv.2) →
      alookup (build_relationships m).weapon_units x = none := by
  constructor
  · refine ⟨weaponNamesOf od, ?_, hw⟩
    exact build_uw_lookup m emptyRelationships u od hnodup hmem
      (fun hc => by rw [hc] at hw; cases hw)
  · intro x hx
    exact build_wu_none m emptyRelationships x hx rfl

theorem c8_dangling_target_tolerance_witness :
    (∃ ws, alookup (build_relationships wMap).unit_weapons "TankA".toList
        = some ws ∧ "GunX".toList ∈ ws) ∧
    ∀ x, (∀ kv ∈ wMap, x ∉ weaponNamesOf kv.2) →
      alookup (build_relationships wMap).weapon_units x = none :=
  c8_dangling_target_tolerance wMap "TankA".toList "GunX".toList wOdA
    (by decide) (by decide) (by decide) (by decide)

end BigEditor
